import Mathlib

/-!
# Verification of the step-recording Dijkstra engine (`dijkstra.py`)

This file is a shallow embedding of the two core functions of the
repository, `dijkstra_steps` and `reconstruct_path` from `src/dijkstra.py`,
together with proofs of the specified properties.

Modelling choices:
* node identifiers are natural numbers (`Node := Nat`);
* Python floats carrying finite distances become rationals; the value
  `math.inf` becomes `none`, so a distance value is an `Option ℚ` (`DistV`);
* Python dictionaries (`dist`, `prev`) become association lists
  `List (Node × α)` with first-match lookup; assigning an existing key
  rewrites it in place, assigning a fresh key appends it (insertion order,
  as in CPython dicts);
* the `networkx` graph becomes a `Graph` record: a node list (enumeration
  order), a neighbor-list function (`G.neighbors`) and a weight function
  (`G[u][v].get("weight", 1.0)`);
* `min(open_set, key=...)` becomes a left fold keeping the first element
  attaining the minimum; the open set is kept in node-enumeration order
  (the tie-break order of the Python original is an incidental container
  order, which the spec leaves open);
* the unbounded `while` loops become fuel-indexed recursions.  The engine
  loop is run with fuel `|nodes|` which is provably enough (each iteration
  removes one node from the open set).  `reconstruct_path`'s walk may
  genuinely diverge on adversarial predecessor maps, so its model returns
  `PathResult.outOfFuel` when the fuel `|prev| + 1` is exhausted; any
  terminating run of the Python loop visits pairwise-distinct nodes of
  which all but the last are keys of `prev`, hence needs at most
  `|prev| + 1` iterations, so `outOfFuel` coincides with divergence;
* `raise ValueError` becomes the `Except.error` branch, and a `KeyError`
  raised by `prev[node]` becomes `PathResult.keyError`.
-/

abbrev Node := Nat

/-- A recorded distance: `none` models Python's `math.inf`, `some q` a
finite float value. -/
abbrev DistV := Option ℚ

/-- Strict `<` on distance values, `none` being `+∞` (Python float
comparison against `math.inf`). -/
def ltE : DistV → DistV → Bool
  | some a, some b => decide (a < b)
  | some _, none => true
  | none, _ => false

/-- Non-strict `≤` on distance values, `none` being `+∞`. -/
def leE : DistV → DistV → Bool
  | _, none => true
  | none, some _ => false
  | some a, some b => decide (a ≤ b)

/-- `x + w` with `∞ + w = ∞` (Python float addition absorbing `inf`). -/
def addE : DistV → ℚ → DistV
  | none, _ => none
  | some a, w => some (a + w)

/-- Semantic value of an `DistV` in `WithTop ℚ`, used for order reasoning. -/
def dval : DistV → WithTop ℚ
  | none => ⊤
  | some a => (a : WithTop ℚ)

theorem ltE_iff (a b : DistV) : ltE a b = true ↔ dval a < dval b := by
  cases a <;> cases b <;>
    simp [ltE, dval, WithTop.coe_lt_top, WithTop.coe_lt_coe, lt_irrefl]

theorem leE_iff (a b : DistV) : leE a b = true ↔ dval a ≤ dval b := by
  cases a <;> cases b <;>
    simp [leE, dval, WithTop.coe_le_coe, le_top, top_le_iff]

theorem dval_addE (a : DistV) (w : ℚ) : dval (addE a w) = dval a + (w : WithTop ℚ) := by
  cases a <;> simp [addE, dval, ← WithTop.coe_add]

theorem dval_eq_coe_iff (a : DistV) (q : ℚ) : dval a = (q : WithTop ℚ) ↔ a = some q := by
  cases a <;> simp [dval]

/-! ## Association lists modelling Python dicts -/

/-- First-match lookup in an association list (`d[k]`, with `none` playing
the role of a `KeyError`). -/
def alookup {α : Type} : List (Node × α) → Node → Option α
  | [], _ => none
  | p :: rest, k => if p.1 = k then some p.2 else alookup rest k

/-- Dict assignment `d[k] = v`: rewrite the key in place if present,
append it otherwise (CPython dict insertion order). -/
def aset {α : Type} (m : List (Node × α)) (k : Node) (v : α) : List (Node × α) :=
  if (alookup m k).isSome then m.map fun p => if p.1 = k then (k, v) else p
  else m ++ [(k, v)]

/-- Reading a distance dict at a node that is a key; on non-keys this
returns `∞` (the engine, like the Python original, only ever reads keys
that are present). -/
def dget (m : List (Node × DistV)) (k : Node) : DistV := (alookup m k).getD none

theorem alookup_append {α : Type} (m m' : List (Node × α)) (k : Node) :
    alookup (m ++ m') k =
      match alookup m k with
      | some v => some v
      | none => alookup m' k := by
  induction m with
  | nil => simp [alookup]
  | cons p rest ih =>
    by_cases hp : p.1 = k
    · simp [alookup, hp]
    · simp [alookup, hp, ih]

theorem alookup_mapUpd_self {α : Type} (m : List (Node × α)) (k : Node) (v : α)
    (h : (alookup m k).isSome) :
    alookup (m.map fun p => if p.1 = k then (k, v) else p) k = some v := by
  induction m with
  | nil => simp [alookup] at h
  | cons p rest ih =>
    by_cases hp : p.1 = k
    · simp [alookup, hp]
    · simp only [alookup, hp, if_false] at h
      simpa [alookup, hp] using ih h

theorem alookup_mapUpd_ne {α : Type} (m : List (Node × α)) (k k' : Node) (v : α)
    (h : k' ≠ k) :
    alookup (m.map fun p => if p.1 = k then (k, v) else p) k' = alookup m k' := by
  induction m with
  | nil => simp [alookup]
  | cons p rest ih =>
    by_cases hp : p.1 = k
    · simp [alookup, hp, Ne.symm h, ih]
    · rw [List.map_cons, if_neg hp]
      by_cases hp' : p.1 = k'
      · simp [alookup, hp']
      · simp [alookup, hp', ih]

theorem alookup_aset_self {α : Type} (m : List (Node × α)) (k : Node) (v : α) :
    alookup (aset m k v) k = some v := by
  unfold aset
  by_cases h : (alookup m k).isSome
  · rw [if_pos h]
    exact alookup_mapUpd_self m k v h
  · rw [if_neg h, alookup_append, Option.not_isSome_iff_eq_none.mp h]
    simp [alookup]

theorem alookup_aset_ne {α : Type} (m : List (Node × α)) (k k' : Node) (v : α)
    (h : k' ≠ k) : alookup (aset m k v) k' = alookup m k' := by
  unfold aset
  by_cases hs : (alookup m k).isSome
  · rw [if_pos hs]
    exact alookup_mapUpd_ne m k k' v h
  · rw [if_neg hs, alookup_append]
    cases hl : alookup m k' with
    | some w => rfl
    | none => simp [alookup, Ne.symm h]

theorem mapUpd_map_fst {α : Type} (m : List (Node × α)) (k : Node) (v : α) :
    (m.map fun p => if p.1 = k then (k, v) else p).map Prod.fst = m.map Prod.fst := by
  induction m with
  | nil => simp
  | cons p rest ih =>
    by_cases hp : p.1 = k
    · simp [hp, ih]
    · simp [hp, ih]

theorem aset_map_fst_of_mem {α : Type} (m : List (Node × α)) (k : Node) (v : α)
    (h : (alookup m k).isSome) : (aset m k v).map Prod.fst = m.map Prod.fst := by
  unfold aset
  simp only [h, if_true]
  exact mapUpd_map_fst m k v

theorem alookup_isSome_iff_mem {α : Type} (m : List (Node × α)) (k : Node) :
    (alookup m k).isSome = true ↔ k ∈ m.map Prod.fst := by
  induction m with
  | nil => simp [alookup]
  | cons p rest ih =>
    by_cases hp : p.1 = k
    · simp [alookup, hp]
    · simp [alookup, hp, ih, Ne.symm hp]

theorem alookup_map_of_mem {α : Type} (l : List Node) (f : Node → α) (k : Node)
    (h : k ∈ l) : alookup (l.map fun n => (n, f n)) k = some (f k) := by
  induction l with
  | nil => cases h
  | cons a rest ih =>
    by_cases ha : a = k
    · simp [alookup, ha]
    · cases h with
      | head => exact absurd rfl ha
      | tail _ h => simp [alookup, ha, ih h]

theorem alookup_map_of_not_mem {α : Type} (l : List Node) (f : Node → α) (k : Node)
    (h : k ∉ l) : alookup (l.map fun n => (n, f n)) k = none := by
  induction l with
  | nil => rfl
  | cons a rest ih =>
    simp only [List.mem_cons, not_or] at h
    have ha : ¬a = k := fun ha => h.1 ha.symm
    simp [alookup, ha, ih h.2]

/-! ## The data of a recorded step -/

/-- One entry of the `trying` log: the fields of the dict literal built for
every examined neighbor in `dijkstra_steps`. -/
structure TryLog where
  i : Node
  j : Node
  link_cost : ℚ
  perm_cost : DistV
  temp_cost : DistV
  selected : String
  deleted : String
deriving DecidableEq

/-- One recorded step of the algorithm (the dict appended to `steps`). -/
structure Step where
  iter : Nat
  trying : List TryLog
  selected_node : Option Node
  closed : List Node
  dist : List (Node × DistV)
  prev : List (Node × Option Node)
deriving DecidableEq

/-- The graph as the engine sees it: node enumeration order, neighbor
lists (`G.neighbors u`) and edge weights (`G[u][v].get("weight", 1.0)`). -/
structure Graph where
  nodes : List Node
  adj : Node → List Node
  w : Node → Node → ℚ

/-! ## The engine -/

/-- `min(open_set, key=lambda n: dist[n])` on the nonempty list `x :: xs`:
left fold keeping the first element attaining the minimum. -/
def selMin (dist : List (Node × DistV)) (x : Node) (xs : List Node) : Node :=
  xs.foldl (fun b n => if ltE (dget dist n) (dget dist b) then n else b) x

/-- The relaxation loop `for nbr in G.neighbors(current)`, returning the
`trying` log together with the updated `dist` and `prev` dicts. -/
def relaxList (G : Graph) (current : Node) (closed : List Node) :
    List Node → List (Node × DistV) → List (Node × Option Node) →
      List TryLog × List (Node × DistV) × List (Node × Option Node)
  | [], dist, prev => ([], dist, prev)
  | nbr :: rest, dist, prev =>
    if nbr ∈ closed then
      let t : TryLog :=
        { i := current, j := nbr, link_cost := G.w current nbr
          perm_cost := dget dist current
          temp_cost := addE (dget dist current) (G.w current nbr)
          selected := "N/A", deleted := "already_closed" }
      let r := relaxList G current closed rest dist prev
      (t :: r.1, r.2)
    else
      let wq := G.w current nbr
      let newCost := addE (dget dist current) wq
      let t : TryLog :=
        { i := current, j := nbr, link_cost := wq
          perm_cost := dget dist current
          temp_cost := newCost
          selected := "N/A", deleted := "NA" }
      let dp :=
        if ltE newCost (dget dist nbr) then
          (aset dist nbr newCost, aset prev nbr (some current))
        else (dist, prev)
      let r := relaxList G current closed rest dp.1 dp.2
      (t :: r.1, r.2)

/-- The `while open_set:` loop of `dijkstra_steps`, fuel-indexed.  Each
iteration selects the open node of minimum distance, either records the
terminal unreachable-remainder step and stops, or relaxes the neighbors,
finalizes the node, records a step, and continues (stopping early when the
finalized node is the goal). -/
def dijkstraLoop (G : Graph) (goal : Option Node) :
    Nat → List (Node × DistV) → List (Node × Option Node) →
      List Node → List Node → Nat → List Step
  | 0, _, _, _, _, _ => []
  | _ + 1, _, _, _, [], _ => []
  | fuel + 1, dist, prev, closed, o :: os, iteration =>
    let current := selMin dist o os
    if dget dist current = none then
      [{ iter := iteration + 1, trying := [], selected_node := none
         closed := closed, dist := dist, prev := prev }]
    else
      let r := relaxList G current closed (G.adj current) dist prev
      let closed' := closed ++ [current]
      let open' := (o :: os).erase current
      let st : Step :=
        { iter := iteration + 1, trying := r.1, selected_node := some current
          closed := closed', dist := r.2.1, prev := r.2.2 }
      st :: (if goal = some current then []
             else dijkstraLoop G goal fuel r.2.1 r.2.2 closed' open' (iteration + 1))

/-- `dist = {n: math.inf for n in G.nodes}` followed by `dist[start] = 0.0`
(the guard of `dijkstra_steps` ensures `start` is a key). -/
def initDist (G : Graph) (start : Node) : List (Node × DistV) :=
  G.nodes.map fun n => (n, if n = start then some 0 else none)

/-- `prev = {n: None for n in G.nodes}`. -/
def initPrev (G : Graph) : List (Node × Option Node) :=
  G.nodes.map fun n => (n, none)

/-- `dijkstra_steps(G, start, goal=None)`: raises `ValueError` when the
start node is absent, otherwise runs the recording loop to completion. -/
def dijkstra_steps (G : Graph) (start : Node) (goal : Option Node) :
    Except String (List Step) :=
  if start ∈ G.nodes then
    .ok (dijkstraLoop G goal G.nodes.length (initDist G start) (initPrev G) [] G.nodes 0)
  else
    .error "start not in graph"

/-- The step list of a successful run (`[]` for the error case); used to
state concrete evaluations. -/
def stepsOf (G : Graph) (start : Node) (goal : Option Node) : List Step :=
  ((dijkstra_steps G start goal).toOption).getD []

/-! ## Path reconstruction -/

/-- Outcome of `reconstruct_path`: a returned list, an uncaught `KeyError`
on a missing key, or divergence of the backward walk (`outOfFuel`). -/
inductive PathResult where
  | ok (p : List Node)
  | keyError (k : Node)
  | outOfFuel
deriving DecidableEq

/-- The `while node is not None` walk of `reconstruct_path`, fuel-indexed.
`path` is the accumulator list being appended to. -/
def rpGo (prev : List (Node × Option Node)) (start : Node) :
    Nat → Node → List Node → PathResult
  | 0, _, _ => .outOfFuel
  | fuel + 1, node, path =>
    if node = start then .ok (path ++ [node]).reverse
    else
      match alookup prev node with
      | none => .keyError node
      | some none => .ok []
      | some (some p) => rpGo prev start fuel p (path ++ [node])

/-- `reconstruct_path(prev, start, goal)`.  Fuel `|prev| + 1` is enough for
every terminating run of the Python loop (see the module docstring). -/
def reconstruct_path (prev : List (Node × Option Node)) (start goal : Node) :
    PathResult :=
  rpGo prev start (prev.length + 1) goal []

/-! ## Paths and shortest distances in the graph -/

/-- A path from `start` ending at a node, as the node list it traverses
(built by extending at the end, matching relaxation). -/
inductive IsPath (G : Graph) (start : Node) : Node → List Node → Prop
  | base : IsPath G start start [start]
  | snoc {x y : Node} {p : List Node} :
      IsPath G start x p → y ∈ G.adj x → IsPath G start y (p ++ [y])

/-- Total weight of the consecutive edges of a node list. -/
def cost (G : Graph) : List Node → ℚ
  | a :: b :: rest => G.w a b + cost G (b :: rest)
  | _ => 0

/-- `d` is the true shortest-path distance from `start` to `n`: it is
attained by a path and lower-bounds the cost of every path. -/
def IsShortestDist (G : Graph) (start n : Node) (d : ℚ) : Prop :=
  (∃ p, IsPath G start n p ∧ cost G p = d) ∧
    ∀ p, IsPath G start n p → d ≤ cost G p

/-! ## Small facts about `dget` -/

theorem dget_of_alookup {m : List (Node × DistV)} {k : Node} {v : DistV}
    (h : alookup m k = some v) : dget m k = v := by simp [dget, h]

theorem dget_some_mem {m : List (Node × DistV)} {k : Node} {q : ℚ}
    (h : dget m k = some q) : k ∈ m.map Prod.fst := by
  rw [← alookup_isSome_iff_mem]
  cases hl : alookup m k with
  | none => simp [dget, hl] at h
  | some v => simp [hl]

theorem dget_of_not_mem {m : List (Node × DistV)} {k : Node}
    (h : k ∉ m.map Prod.fst) : dget m k = none := by
  cases hl : alookup m k with
  | none => simp [dget, hl]
  | some v =>
    exact absurd ((alookup_isSome_iff_mem m k).mp (by simp [hl])) h

theorem dval_le_coe {a : DistV} {c : ℚ} (h : dval a ≤ (c : WithTop ℚ)) :
    ∃ q, a = some q ∧ q ≤ c := by
  cases a with
  | none => simp [dval, top_le_iff] at h
  | some q => exact ⟨q, rfl, by simpa [dval, WithTop.coe_le_coe] using h⟩

/-! ## Lemmas about the minimum selection -/

theorem selMin_cons (dist : List (Node × DistV)) (x n : Node) (rest : List Node) :
    selMin dist x (n :: rest) =
      selMin dist (if ltE (dget dist n) (dget dist x) then n else x) rest := rfl

theorem selMin_mem (dist : List (Node × DistV)) :
    ∀ (xs : List Node) (x : Node), selMin dist x xs ∈ x :: xs
  | [], x => by simp [selMin]
  | n :: rest, x => by
    rw [selMin_cons]
    have h := selMin_mem dist rest (if ltE (dget dist n) (dget dist x) then n else x)
    rcases List.mem_cons.mp h with h | h
    · by_cases hc : ltE (dget dist n) (dget dist x) = true
      · rw [h, if_pos hc]; simp
      · rw [h, if_neg hc]; simp
    · simp [h]

theorem selMin_not_lt (dist : List (Node × DistV)) :
    ∀ (xs : List Node) (x : Node), ∀ y ∈ x :: xs,
      ¬ dval (dget dist y) < dval (dget dist (selMin dist x xs))
  | [], x => by
    intro y hy
    rcases List.mem_cons.mp hy with rfl | hy
    · simp [selMin]
    · cases hy
  | n :: rest, x => by
    intro y hy
    rw [selMin_cons]
    have ih := selMin_not_lt dist rest (if ltE (dget dist n) (dget dist x) then n else x)
    rcases List.mem_cons.mp hy with rfl | hy
    · by_cases hc : ltE (dget dist n) (dget dist y) = true
      · rw [if_pos hc] at ih ⊢
        intro hlt
        exact ih n (by simp) (lt_trans ((ltE_iff _ _).mp hc) hlt)
      · rw [if_neg hc] at ih ⊢
        exact ih y (by simp)
    · rcases List.mem_cons.mp hy with rfl | hy
      · by_cases hc : ltE (dget dist y) (dget dist x) = true
        · rw [if_pos hc] at ih ⊢
          exact ih y (by simp)
        · rw [if_neg hc] at ih ⊢
          intro hlt
          have hxle : ¬ dval (dget dist y) < dval (dget dist x) := by
            simpa [ltE_iff] using hc
          exact ih x (by simp) (lt_of_le_of_lt (not_lt.mp hxle) hlt)
      · by_cases hc : ltE (dget dist n) (dget dist x) = true
        · rw [if_pos hc] at ih ⊢
          exact ih y (by simp [hy])
        · rw [if_neg hc] at ih ⊢
          exact ih y (by simp [hy])

/-! ## Lemmas about the relaxation loop -/

theorem relax_frozen (G : Graph) (current : Node) (closed : List Node) :
    ∀ (l : List Node) (dist : List (Node × DistV)) (prev : List (Node × Option Node)),
      ∀ n ∈ closed,
        dget (relaxList G current closed l dist prev).2.1 n = dget dist n ∧
        alookup (relaxList G current closed l dist prev).2.2 n = alookup prev n
  | [], dist, prev => by intro n _; exact ⟨rfl, rfl⟩
  | nbr :: rest, dist, prev => by
    intro n hn
    by_cases hmem : nbr ∈ closed
    · simpa [relaxList, hmem] using relax_frozen G current closed rest dist prev n hn
    · have hne : n ≠ nbr := fun h => hmem (h ▸ hn)
      by_cases hlt : ltE (addE (dget dist current) (G.w current nbr)) (dget dist nbr) = true
      · have ih := relax_frozen G current closed rest
          (aset dist nbr (addE (dget dist current) (G.w current nbr)))
          (aset prev nbr (some current)) n hn
        simp only [relaxList, hmem, if_false, hlt, if_true]
        refine ⟨?_, ?_⟩
        · rw [ih.1]
          simp [dget, alookup_aset_ne _ _ _ _ hne]
        · rw [ih.2, alookup_aset_ne _ _ _ _ hne]
      · simpa [relaxList, hmem, hlt] using relax_frozen G current closed rest dist prev n hn

theorem relax_notin (G : Graph) (current : Node) (closed : List Node) :
    ∀ (l : List Node) (dist : List (Node × DistV)) (prev : List (Node × Option Node)),
      ∀ n, n ∉ l →
        dget (relaxList G current closed l dist prev).2.1 n = dget dist n ∧
        alookup (relaxList G current closed l dist prev).2.2 n = alookup prev n
  | [], dist, prev => by intro n _; exact ⟨rfl, rfl⟩
  | nbr :: rest, dist, prev => by
    intro n hn
    have hne : n ≠ nbr := fun h => hn (h ▸ List.mem_cons_self nbr rest)
    have hrest : n ∉ rest := fun h => hn (List.mem_cons_of_mem nbr h)
    by_cases hmem : nbr ∈ closed
    · simpa [relaxList, hmem] using relax_notin G current closed rest dist prev n hrest
    · by_cases hlt : ltE (addE (dget dist current) (G.w current nbr)) (dget dist nbr) = true
      · have ih := relax_notin G current closed rest
          (aset dist nbr (addE (dget dist current) (G.w current nbr)))
          (aset prev nbr (some current)) n hrest
        simp only [relaxList, hmem, if_false, hlt, if_true]
        refine ⟨?_, ?_⟩
        · rw [ih.1]
          simp [dget, alookup_aset_ne _ _ _ _ hne]
        · rw [ih.2, alookup_aset_ne _ _ _ _ hne]
      · simpa [relaxList, hmem, hlt] using relax_notin G current closed rest dist prev n hrest

theorem relax_mono (G : Graph) (current : Node) (closed : List Node) :
    ∀ (l : List Node) (dist : List (Node × DistV)) (prev : List (Node × Option Node)),
      ∀ n, dval (dget (relaxList G current closed l dist prev).2.1 n) ≤ dval (dget dist n)
  | [], dist, prev => by intro n; exact le_refl _
  | nbr :: rest, dist, prev => by
    intro n
    by_cases hmem : nbr ∈ closed
    · simpa [relaxList, hmem] using relax_mono G current closed rest dist prev n
    · by_cases hlt : ltE (addE (dget dist current) (G.w current nbr)) (dget dist nbr) = true
      · have ih := relax_mono G current closed rest
          (aset dist nbr (addE (dget dist current) (G.w current nbr)))
          (aset prev nbr (some current)) n
        simp only [relaxList, hmem, if_false, hlt, if_true] at ih ⊢
        refine le_trans ih ?_
        by_cases hne : n = nbr
        · subst hne
          rw [dget_of_alookup (alookup_aset_self _ _ _)]
          exact le_of_lt ((ltE_iff _ _).mp hlt)
        · rw [dget, alookup_aset_ne _ _ _ _ hne]
          exact le_refl _
      · simpa [relaxList, hmem, hlt] using relax_mono G current closed rest dist prev n

theorem relax_keys (G : Graph) (current : Node) (closed : List Node) :
    ∀ (l : List Node) (dist : List (Node × DistV)) (prev : List (Node × Option Node)),
      (∀ n ∈ l, n ∈ dist.map Prod.fst) → (∀ n ∈ l, n ∈ prev.map Prod.fst) →
      (relaxList G current closed l dist prev).2.1.map Prod.fst = dist.map Prod.fst ∧
      (relaxList G current closed l dist prev).2.2.map Prod.fst = prev.map Prod.fst
  | [], dist, prev => by intro _ _; exact ⟨rfl, rfl⟩
  | nbr :: rest, dist, prev => by
    intro hkd hkp
    have hkd' := fun m hm => hkd m (List.mem_cons_of_mem _ hm)
    have hkp' := fun m hm => hkp m (List.mem_cons_of_mem _ hm)
    by_cases hmem : nbr ∈ closed
    · simpa [relaxList, hmem] using
        relax_keys G current closed rest dist prev hkd' hkp'
    · by_cases hlt : ltE (addE (dget dist current) (G.w current nbr)) (dget dist nbr) = true
      · have hsd : (alookup dist nbr).isSome :=
          (alookup_isSome_iff_mem dist nbr).mpr (hkd nbr (List.mem_cons_self _ _))
        have hsp : (alookup prev nbr).isSome :=
          (alookup_isSome_iff_mem prev nbr).mpr (hkp nbr (List.mem_cons_self _ _))
        have hfd := aset_map_fst_of_mem dist nbr
          (addE (dget dist current) (G.w current nbr)) hsd
        have hfp := aset_map_fst_of_mem prev nbr (some current) hsp
        have ih := relax_keys G current closed rest
          (aset dist nbr (addE (dget dist current) (G.w current nbr)))
          (aset prev nbr (some current))
          (fun m hm => hfd ▸ hkd' m hm) (fun m hm => hfp ▸ hkp' m hm)
        simp only [relaxList, hmem, if_false, hlt, if_true]
        exact ⟨ih.1.trans hfd, ih.2.trans hfp⟩
      · simpa [relaxList, hmem, hlt] using
          relax_keys G current closed rest dist prev hkd' hkp'

theorem relax_current (G : Graph) (current : Node) (closed : List Node) {dc : ℚ} :
    ∀ (l : List Node) (dist : List (Node × DistV)) (prev : List (Node × Option Node)),
      dget dist current = some dc → (∀ n ∈ l, 0 ≤ G.w current n) →
      dget (relaxList G current closed l dist prev).2.1 current = some dc
  | [], dist, prev => by intro hc _; exact hc
  | nbr :: rest, dist, prev => by
    intro hc hnn
    have hnn' := fun m hm => hnn m (List.mem_cons_of_mem _ hm)
    by_cases hmem : nbr ∈ closed
    · simpa [relaxList, hmem] using relax_current G current closed rest dist prev hc hnn'
    · by_cases hlt : ltE (addE (dget dist current) (G.w current nbr)) (dget dist nbr) = true
      · have hnbrcur : nbr ≠ current := by
          intro h
          subst h
          rw [hc] at hlt
          have hw := hnn nbr (List.mem_cons_self _ _)
          have hlt' := (ltE_iff _ _).mp hlt
          simp only [addE, dval, WithTop.coe_lt_coe] at hlt'
          linarith
        have hc₁ : dget (aset dist nbr (addE (dget dist current) (G.w current nbr))) current
            = some dc := by
          rw [dget, alookup_aset_ne _ _ _ _ (Ne.symm hnbrcur)]
          exact hc
        have ih := relax_current G current closed rest
          (aset dist nbr (addE (dget dist current) (G.w current nbr)))
          (aset prev nbr (some current)) hc₁ hnn'
        simpa [relaxList, hmem, hlt] using ih
      · simpa [relaxList, hmem, hlt] using relax_current G current closed rest dist prev hc hnn'

/-- The log entry `dijkstra_steps` records for the neighbor `nbr` of the
selected node `current` whose (finite) distance is `dc`. -/
def mkLog (G : Graph) (current : Node) (closed : List Node) (dc : ℚ) (nbr : Node) :
    TryLog :=
  { i := current, j := nbr, link_cost := G.w current nbr
    perm_cost := some dc
    temp_cost := some (dc + G.w current nbr)
    selected := "N/A"
    deleted := if nbr ∈ closed then "already_closed" else "NA" }

theorem relax_logs (G : Graph) (current : Node) (closed : List Node) {dc : ℚ} :
    ∀ (l : List Node) (dist : List (Node × DistV)) (prev : List (Node × Option Node)),
      dget dist current = some dc → (∀ n ∈ l, 0 ≤ G.w current n) →
      (relaxList G current closed l dist prev).1 = l.map (mkLog G current closed dc)
  | [], dist, prev => by intro _ _; rfl
  | nbr :: rest, dist, prev => by
    intro hc hnn
    have hnn' := fun m hm => hnn m (List.mem_cons_of_mem _ hm)
    by_cases hmem : nbr ∈ closed
    · have ih := relax_logs G current closed rest dist prev hc hnn'
      simp only [relaxList, hmem, if_true, List.map_cons]
      refine congrArg₂ List.cons ?_ ih
      simp [mkLog, hmem, hc, addE]
    · by_cases hlt : ltE (addE (dget dist current) (G.w current nbr)) (dget dist nbr) = true
      · have hlt2 := hlt
        rw [hc] at hlt2
        simp only [addE] at hlt2
        have hnbrcur : nbr ≠ current := by
          intro h
          subst h
          rw [hc] at hlt2
          have hw := hnn nbr (List.mem_cons_self _ _)
          have hlt' := (ltE_iff _ _).mp hlt2
          simp only [dval, WithTop.coe_lt_coe] at hlt'
          linarith
        have hc₁ : dget (aset dist nbr (addE (dget dist current) (G.w current nbr))) current
            = some dc := by
          rw [dget, alookup_aset_ne _ _ _ _ (Ne.symm hnbrcur)]
          exact hc
        have ih := relax_logs G current closed rest
          (aset dist nbr (addE (dget dist current) (G.w current nbr)))
          (aset prev nbr (some current)) hc₁ hnn'
        simp only [relaxList, hmem, if_false, hlt, if_true, List.map_cons]
        refine congrArg₂ List.cons ?_ ih
        simp [mkLog, hmem, hc, addE]
      · have ih := relax_logs G current closed rest dist prev hc hnn'
        simp only [relaxList, hmem, if_false, hlt, List.map_cons]
        refine congrArg₂ List.cons ?_ ih
        simp [mkLog, hmem, hc, addE]

theorem relax_char (G : Graph) (current : Node) (closed : List Node) {dc : ℚ} :
    ∀ (l : List Node) (dist : List (Node × DistV)) (prev : List (Node × Option Node)),
      dget dist current = some dc →
      (∀ n ∈ l, 0 ≤ G.w current n) →
      l.Nodup →
      (∀ n ∈ l, n ∈ dist.map Prod.fst) →
      (∀ n ∈ l, n ∈ prev.map Prod.fst) →
      ∀ n ∈ l, n ∉ closed →
        (ltE (some (dc + G.w current n)) (dget dist n) = true →
          dget (relaxList G current closed l dist prev).2.1 n = some (dc + G.w current n) ∧
          alookup (relaxList G current closed l dist prev).2.2 n = some (some current)) ∧
        (ltE (some (dc + G.w current n)) (dget dist n) = false →
          dget (relaxList G current closed l dist prev).2.1 n = dget dist n ∧
          alookup (relaxList G current closed l dist prev).2.2 n = alookup prev n)
  | [], dist, prev => by intro _ _ _ _ _ n hn; cases hn
  | nbr :: rest, dist, prev => by
    intro hc hnn hnd hkd hkp n hn hncl
    have hnn' := fun m hm => hnn m (List.mem_cons_of_mem _ hm)
    have hkd' := fun m hm => hkd m (List.mem_cons_of_mem _ hm)
    have hkp' := fun m hm => hkp m (List.mem_cons_of_mem _ hm)
    have hndrest : rest.Nodup := (List.nodup_cons.mp hnd).2
    have hnbrrest : nbr ∉ rest := (List.nodup_cons.mp hnd).1
    have hcand : addE (dget dist current) (G.w current nbr) = some (dc + G.w current nbr) := by
      rw [hc]
      rfl
    by_cases hmem : nbr ∈ closed
    · have hne : n ≠ nbr := fun h => hncl (h ▸ hmem)
      have hnrest : n ∈ rest := by
        rcases List.mem_cons.mp hn with h | h
        · exact absurd h hne
        · exact h
      have ih := relax_char G current closed rest dist prev hc hnn' hndrest hkd' hkp'
        n hnrest hncl
      simpa [relaxList, hmem] using ih
    · by_cases hlt : ltE (addE (dget dist current) (G.w current nbr)) (dget dist nbr) = true
      · -- the head neighbor is updated
        have hlt2 := hlt
        rw [hcand] at hlt2
        have hnbrcur : nbr ≠ current := by
          intro h
          subst h
          rw [hc] at hlt2
          have hw := hnn nbr (List.mem_cons_self _ _)
          have hlt' := (ltE_iff _ _).mp hlt2
          simp only [dval, WithTop.coe_lt_coe] at hlt'
          linarith
        have hc₁ : dget (aset dist nbr (addE (dget dist current) (G.w current nbr))) current
            = some dc := by
          rw [dget, alookup_aset_ne _ _ _ _ (Ne.symm hnbrcur)]
          exact hc
        have hsd : (alookup dist nbr).isSome :=
          (alookup_isSome_iff_mem dist nbr).mpr (hkd nbr (List.mem_cons_self _ _))
        have hsp : (alookup prev nbr).isSome :=
          (alookup_isSome_iff_mem prev nbr).mpr (hkp nbr (List.mem_cons_self _ _))
        have hfd := aset_map_fst_of_mem dist nbr
          (addE (dget dist current) (G.w current nbr)) hsd
        have hfp := aset_map_fst_of_mem prev nbr (some current) hsp
        by_cases heq : n = nbr
        · subst heq
          have hni := relax_notin G current closed rest
            (aset dist n (addE (dget dist current) (G.w current n)))
            (aset prev n (some current)) n hnbrrest
          constructor
          · intro _
            simp only [relaxList, hmem, if_false, hlt, if_true]
            refine ⟨?_, ?_⟩
            · rw [hni.1, dget_of_alookup (alookup_aset_self _ _ _), hcand]
            · rw [hni.2, alookup_aset_self]
          · intro hcon
            simp [hcon] at hlt2
        · have hnrest : n ∈ rest := by
            rcases List.mem_cons.mp hn with h | h
            · exact absurd h heq
            · exact h
          have ih := relax_char G current closed rest
            (aset dist nbr (addE (dget dist current) (G.w current nbr)))
            (aset prev nbr (some current)) hc₁ hnn' hndrest
            (fun m hm => hfd ▸ hkd' m hm) (fun m hm => hfp ▸ hkp' m hm) n hnrest hncl
          have hdn : dget (aset dist nbr (addE (dget dist current) (G.w current nbr))) n
              = dget dist n := by
            rw [dget, alookup_aset_ne _ _ _ _ heq]
            rfl
          have hpn : alookup (aset prev nbr (some current)) n = alookup prev n :=
            alookup_aset_ne _ _ _ _ heq
          rw [hdn, hpn] at ih
          simpa [relaxList, hmem, hlt] using ih
      · -- the head neighbor is not updated
        by_cases heq : n = nbr
        · subst heq
          have hni := relax_notin G current closed rest dist prev n hnbrrest
          constructor
          · intro hcon
            rw [hcand] at hlt
            exact absurd hcon hlt
          · intro _
            simp only [relaxList, hmem, if_false, hlt, if_false]
            exact ⟨hni.1, hni.2⟩
        · have hnrest : n ∈ rest := by
            rcases List.mem_cons.mp hn with h | h
            · exact absurd h heq
            · exact h
          have ih := relax_char G current closed rest dist prev hc hnn' hndrest hkd' hkp'
            n hnrest hncl
          simpa [relaxList, hmem, hlt] using ih

/-! ## Positions in a list (used for the forward-in-time predecessor order) -/

/-- Index of the first occurrence of `a` (length of the list if absent). -/
def posIn (a : Node) : List Node → Nat
  | [] => 0
  | b :: l => if b = a then 0 else posIn a l + 1

theorem posIn_lt_length {a : Node} : ∀ {l : List Node}, a ∈ l → posIn a l < l.length := by
  intro l
  induction l with
  | nil => intro h; cases h
  | cons b rest ih =>
    intro h
    by_cases hb : b = a
    · simp [posIn, hb]
    · cases h with
      | head => exact absurd rfl hb
      | tail _ h => simpa [posIn, hb] using ih h

theorem posIn_append_left {a : Node} :
    ∀ {l₁ : List Node} (l₂ : List Node), a ∈ l₁ → posIn a (l₁ ++ l₂) = posIn a l₁ := by
  intro l₁
  induction l₁ with
  | nil => intro _ h; cases h
  | cons b rest ih =>
    intro l₂ h
    by_cases hb : b = a
    · simp [posIn, hb]
    · cases h with
      | head => exact absurd rfl hb
      | tail _ h => simp [posIn, hb, ih l₂ h]

theorem posIn_append_right {a : Node} :
    ∀ {l₁ : List Node} (l₂ : List Node), a ∉ l₁ →
      posIn a (l₁ ++ l₂) = l₁.length + posIn a l₂ := by
  intro l₁
  induction l₁ with
  | nil => intro _ _; simp [posIn]
  | cons b rest ih =>
    intro l₂ h
    simp only [List.mem_cons, not_or] at h
    have hb : ¬b = a := fun hb => h.1 hb.symm
    simp [posIn, hb, ih l₂ h.2]
    omega

/-! ## Path and cost lemmas -/

theorem cost_cons₂ (G : Graph) (a b : Node) (rest : List Node) :
    cost G (a :: b :: rest) = G.w a b + cost G (b :: rest) := rfl

theorem isPath_getLast {G : Graph} {start n : Node} {p : List Node}
    (h : IsPath G start n p) : p.getLast? = some n := by
  induction h with
  | base => rfl
  | snoc _ _ _ => simp [List.getLast?_concat]

theorem isPath_end_mem {G : Graph} {start n : Node} {p : List Node}
    (h : IsPath G start n p) : n ∈ p := by
  induction h with
  | base => simp
  | snoc _ _ _ => simp

theorem cost_concat (G : Graph) :
    ∀ (p : List Node) (x y : Node), p.getLast? = some x →
      cost G (p ++ [y]) = cost G p + G.w x y
  | [], x, y => by intro h; cases h
  | [a], x, y => by
    intro h
    simp only [List.getLast?_singleton, Option.some_inj] at h
    subst h
    simp [cost]
  | a :: b :: rest, x, y => by
    intro h
    rw [List.getLast?_cons_cons] at h
    have ih := cost_concat G (b :: rest) x y h
    simp only [List.cons_append] at ih ⊢
    rw [cost_cons₂, cost_cons₂, ih]
    ring

theorem isPath_mem_nodes {G : Graph} {start n : Node} {p : List Node}
    (hs : start ∈ G.nodes) (hadj : ∀ x ∈ G.nodes, ∀ y ∈ G.adj x, y ∈ G.nodes)
    (h : IsPath G start n p) : ∀ m ∈ p, m ∈ G.nodes := by
  induction h with
  | base => intro m hm; rcases List.mem_singleton.mp hm with rfl; exact hs
  | @snoc x y q hq hy ih =>
    intro m hm
    rcases List.mem_append.mp hm with hm | hm
    · exact ih m hm
    · rcases List.mem_singleton.mp hm with rfl
      exact hadj x (ih x (isPath_end_mem hq)) m hy

theorem isPath_cost_nonneg {G : Graph} {start n : Node} {p : List Node}
    (hs : start ∈ G.nodes) (hadj : ∀ x ∈ G.nodes, ∀ y ∈ G.adj x, y ∈ G.nodes)
    (hw : ∀ x ∈ G.nodes, ∀ y ∈ G.adj x, 0 ≤ G.w x y)
    (h : IsPath G start n p) : 0 ≤ cost G p := by
  induction h with
  | base => simp [cost]
  | @snoc x y q hq hy ih =>
    rw [cost_concat G q x y (isPath_getLast hq)]
    have hx : x ∈ G.nodes := isPath_mem_nodes hs hadj hq x (isPath_end_mem hq)
    have := hw x hx y hy
    linarith

/-! ## Well-formedness of the graph (the Graph Model invariants of the spec) -/

/-- Graph Model invariants: distinct node ids, edges between declared nodes,
no repeated neighbor entries, non-negative weights. -/
structure WF (G : Graph) : Prop where
  nodes_nodup : G.nodes.Nodup
  adj_mem : ∀ x ∈ G.nodes, ∀ y ∈ G.adj x, y ∈ G.nodes
  adj_nodup : ∀ x ∈ G.nodes, (G.adj x).Nodup
  w_nonneg : ∀ x ∈ G.nodes, ∀ y ∈ G.adj x, 0 ≤ G.w x y

/-! ## The loop invariant of `dijkstra_steps` -/

/-- Invariant of the engine state at the top of the `while open_set:` loop. -/
structure EngineInv (G : Graph) (start : Node) (dist : List (Node × DistV))
    (prev : List (Node × Option Node)) (closed openl : List Node) : Prop where
  keys_dist : dist.map Prod.fst = G.nodes
  keys_prev : prev.map Prod.fst = G.nodes
  perm : (closed ++ openl).Perm G.nodes
  start_zero : dget dist start = some 0
  nonneg_dist : ∀ n q, dget dist n = some q → 0 ≤ q
  start_closed : closed = [] ∨ start ∈ closed
  init_empty : closed = [] → ∀ n, n ≠ start → dget dist n = none
  reach : ∀ n q, dget dist n = some q → ∃ p, IsPath G start n p ∧ cost G p = q
  settled : ∀ x ∈ closed, ∃ q, dget dist x = some q ∧ IsShortestDist G start x q
  edge_ub : ∀ x ∈ closed, ∀ y ∈ G.adj x, ∀ qx, dget dist x = some qx →
      ∃ qy, dget dist y = some qy ∧ qy ≤ qx + G.w x y
  closed_le_open : ∀ x ∈ closed, ∀ qx, dget dist x = some qx →
      ∀ y ∈ openl, ∀ qy, dget dist y = some qy → qx ≤ qy
  prev_closed : ∀ n p', alookup prev n = some (some p') →
      p' ∈ closed ∧ (n ∈ closed → posIn p' closed < posIn n closed)
  prev_dist : ∀ n p', alookup prev n = some (some p') →
      ∃ qn qp, dget dist n = some qn ∧ dget dist p' = some qp ∧ qn = qp + G.w p' n

theorem inv_disjoint {G : Graph} {start : Node} {dist prev closed openl}
    (hwf : WF G) (inv : EngineInv G start dist prev closed openl) :
    ∀ n ∈ closed, n ∉ openl := by
  have hnd : (closed ++ openl).Nodup := inv.perm.symm.nodup hwf.nodes_nodup
  intro n hn hno
  exact (List.disjoint_of_nodup_append hnd) hn hno

theorem inv_open_nodes {G : Graph} {start : Node} {dist prev closed openl}
    (inv : EngineInv G start dist prev closed openl) :
    ∀ n ∈ openl, n ∈ G.nodes := fun n hn =>
  inv.perm.mem_iff.mp (List.mem_append.mpr (Or.inr hn))

theorem inv_closed_nodes {G : Graph} {start : Node} {dist prev closed openl}
    (inv : EngineInv G start dist prev closed openl) :
    ∀ n ∈ closed, n ∈ G.nodes := fun n hn =>
  inv.perm.mem_iff.mp (List.mem_append.mpr (Or.inl hn))

/-- At selection time, the (finite) distance of the selected minimum node
lower-bounds the cost of every path from `start` to any still-open node. -/
theorem key_lower_bound {G : Graph} {start : Node} {dist prev closed} {o : Node}
    {os : List Node} (hwf : WF G) (hs : start ∈ G.nodes)
    (inv : EngineInv G start dist prev closed (o :: os)) {dc : ℚ}
    (hdc : dget dist (selMin dist o os) = some dc) :
    ∀ n p, IsPath G start n p → n ∈ o :: os → dc ≤ cost G p := by
  intro n p hp
  induction hp with
  | base =>
    intro hmem
    rcases inv.start_closed with hcl | hcl
    · -- no node is closed yet: the minimum must be `start` with distance 0
      have hcur : selMin dist o os = start := by
        by_contra hne
        rw [inv.init_empty hcl _ hne] at hdc
        cases hdc
      rw [hcur, inv.start_zero] at hdc
      cases hdc
      simp [cost]
    · exact absurd hmem (inv_disjoint hwf inv start hcl)
  | @snoc x y q hq hy ih =>
    intro hmem
    have hx : x ∈ G.nodes := isPath_mem_nodes hs hwf.adj_mem hq x (isPath_end_mem hq)
    rw [cost_concat G q x y (isPath_getLast hq)]
    rcases List.mem_append.mp (inv.perm.mem_iff.mpr hx) with hxc | hxo
    · -- the path leaves the closed region at the edge x→y
      obtain ⟨qx, hqx, hshort⟩ := inv.settled x hxc
      obtain ⟨qy, hqy, hqyle⟩ := inv.edge_ub x hxc y hy qx hqx
      have hmin := selMin_not_lt dist os o y hmem
      rw [hdc, hqy] at hmin
      have hdcqy : dc ≤ qy := by
        have := not_lt.mp hmin
        simpa [dval, WithTop.coe_le_coe] using this
      have hlow := hshort.2 q hq
      have hw := hwf.w_nonneg x hx y hy
      linarith
    · -- the path is still inside the open region: recurse
      have := ih hxo
      have hw := hwf.w_nonneg x hx y hy
      linarith

/-- One full iteration of the engine loop (relax all neighbors of the
selected minimum node, then finalize it) preserves the loop invariant. -/
theorem inv_preserved {G : Graph} {start : Node} {dist prev closed} {o : Node}
    {os : List Node} (hwf : WF G) (hs : start ∈ G.nodes)
    (inv : EngineInv G start dist prev closed (o :: os)) {dc : ℚ}
    (hdc : dget dist (selMin dist o os) = some dc) :
    EngineInv G start
      (relaxList G (selMin dist o os) closed (G.adj (selMin dist o os)) dist prev).2.1
      (relaxList G (selMin dist o os) closed (G.adj (selMin dist o os)) dist prev).2.2
      (closed ++ [selMin dist o os]) ((o :: os).erase (selMin dist o os)) := by
  set current := selMin dist o os with hcurdef
  set R := relaxList G current closed (G.adj current) dist prev with hRdef
  have hcurmem : current ∈ o :: os := selMin_mem dist os o
  have hcurnodes : current ∈ G.nodes := inv_open_nodes inv current hcurmem
  have hcurncl : current ∉ closed := fun h => (inv_disjoint hwf inv current h) hcurmem
  have hnnl : ∀ m ∈ G.adj current, 0 ≤ G.w current m := hwf.w_nonneg current hcurnodes
  have hkd : ∀ m ∈ G.adj current, m ∈ dist.map Prod.fst := fun m hm =>
    inv.keys_dist ▸ hwf.adj_mem current hcurnodes m hm
  have hkp : ∀ m ∈ G.adj current, m ∈ prev.map Prod.fst := fun m hm =>
    inv.keys_prev ▸ hwf.adj_mem current hcurnodes m hm
  have hadjnd := hwf.adj_nodup current hcurnodes
  have hchar := relax_char G current closed (G.adj current) dist prev hdc hnnl hadjnd hkd hkp
  have hfro := relax_frozen G current closed (G.adj current) dist prev
  have hnotin := relax_notin G current closed (G.adj current) dist prev
  have hmono := relax_mono G current closed (G.adj current) dist prev
  have hcur' : dget R.2.1 current = some dc :=
    relax_current G current closed (G.adj current) dist prev hdc hnnl
  have hkeys := relax_keys G current closed (G.adj current) dist prev hkd hkp
  have hdcnn : 0 ≤ dc := inv.nonneg_dist current dc hdc
  have hempty_cur : closed = [] → current = start := by
    intro hcl
    by_contra hne
    rw [inv.init_empty hcl current hne] at hdc
    cases hdc
  have hpoint : ∀ n, (dget R.2.1 n = dget dist n ∧ alookup R.2.2 n = alookup prev n) ∨
      (n ∈ G.adj current ∧ n ∉ closed ∧ n ≠ current ∧
        dget R.2.1 n = some (dc + G.w current n) ∧
        alookup R.2.2 n = some (some current) ∧
        ltE (some (dc + G.w current n)) (dget dist n) = true) := by
    intro n
    by_cases hncl : n ∈ closed
    · exact Or.inl (hfro n hncl)
    · by_cases hnadj : n ∈ G.adj current
      · have hc := hchar n hnadj hncl
        cases hb : ltE (some (dc + G.w current n)) (dget dist n) with
        | false => exact Or.inl (hc.2 hb)
        | true =>
          have hne : n ≠ current := by
            intro h
            subst h
            rw [hdc] at hb
            have hb' := (ltE_iff _ _).mp hb
            simp only [dval, WithTop.coe_lt_coe] at hb'
            have := hnnl current hnadj
            linarith
          exact Or.inr ⟨hnadj, hncl, hne, (hc.1 hb).1, (hc.1 hb).2, rfl⟩
      · exact Or.inl (hnotin n hnadj)
  refine
    { keys_dist := hkeys.1.trans inv.keys_dist
      keys_prev := hkeys.2.trans inv.keys_prev
      perm := ?_, start_zero := ?_, nonneg_dist := ?_, start_closed := ?_
      init_empty := ?_, reach := ?_, settled := ?_, edge_ub := ?_
      closed_le_open := ?_, prev_closed := ?_, prev_dist := ?_ }
  · -- perm
    have h1 : (closed ++ [current]) ++ (o :: os).erase current
        = closed ++ (current :: (o :: os).erase current) := by
      simp [List.append_assoc]
    rw [h1]
    exact (List.Perm.append_left closed (List.perm_cons_erase hcurmem).symm).trans inv.perm
  · -- start_zero
    have hds : dget R.2.1 start = dget dist start := by
      by_cases hsc : start ∈ closed
      · exact (hfro start hsc).1
      · rcases inv.start_closed with hcl | hcl
        · have hcs := hempty_cur hcl
          rw [hcs] at hcur' hdc
          rw [hcur', hdc]
        · exact absurd hcl hsc
    rw [hds]
    exact inv.start_zero
  · -- nonneg_dist
    intro n q hq
    rcases hpoint n with ⟨hd, _⟩ | ⟨hnadj, _, _, hd, _, _⟩
    · rw [hd] at hq
      exact inv.nonneg_dist n q hq
    · rw [hd] at hq
      have hq' : dc + G.w current n = q := Option.some.inj hq
      have := hnnl n hnadj
      linarith
  · -- start_closed
    refine Or.inr ?_
    rcases inv.start_closed with hcl | hcl
    · have hcs := hempty_cur hcl
      simp [hcl, hcs]
    · exact List.mem_append.mpr (Or.inl hcl)
  · -- init_empty
    intro h
    simp at h
  · -- reach
    intro n q hq
    rcases hpoint n with ⟨hd, _⟩ | ⟨hnadj, _, _, hd, _, _⟩
    · rw [hd] at hq
      exact inv.reach n q hq
    · rw [hd] at hq
      have hq' : dc + G.w current n = q := Option.some.inj hq
      obtain ⟨p, hp, hcost⟩ := inv.reach current dc hdc
      refine ⟨p ++ [n], IsPath.snoc hp hnadj, ?_⟩
      rw [cost_concat G p current n (isPath_getLast hp), hcost, hq']
  · -- settled
    intro x hx
    rcases List.mem_append.mp hx with hxc | hxcur
    · obtain ⟨q, hq, hsh⟩ := inv.settled x hxc
      exact ⟨q, (hfro x hxc).1.trans hq, hsh⟩
    · rcases List.mem_singleton.mp hxcur with rfl
      refine ⟨dc, hcur', inv.reach current dc hdc, ?_⟩
      intro p hp
      exact key_lower_bound hwf hs inv hdc current p hp hcurmem
  · -- edge_ub
    intro x hx y hy qx hqx
    rcases List.mem_append.mp hx with hxc | hxcur
    · rw [(hfro x hxc).1] at hqx
      obtain ⟨qy, hqy, hle⟩ := inv.edge_ub x hxc y hy qx hqx
      have hm := hmono y
      rw [hqy] at hm
      obtain ⟨qy', hqy', hle'⟩ := dval_le_coe (by simpa [dval] using hm)
      exact ⟨qy', hqy', by linarith⟩
    · rcases List.mem_singleton.mp hxcur with rfl
      have hqxdc : dc = qx := Option.some.inj (hcur'.symm.trans hqx)
      by_cases hycl : y ∈ closed
      · obtain ⟨qy, hqy, _⟩ := inv.settled y hycl
        have hle : qy ≤ dc := inv.closed_le_open y hycl qy hqy current hcurmem dc hdc
        have hw := hnnl y hy
        exact ⟨qy, (hfro y hycl).1.trans hqy, by linarith⟩
      · have hc := hchar y hy hycl
        cases hb : ltE (some (dc + G.w current y)) (dget dist y) with
        | true => exact ⟨dc + G.w current y, (hc.1 hb).1, by rw [← hqxdc]⟩
        | false =>
          have hdy := (hc.2 hb).1
          have hnb : ¬ dval (some (dc + G.w current y)) < dval (dget dist y) := by
            rw [← ltE_iff]
            simp [hb]
          have hub : dval (dget dist y) ≤ ((dc + G.w current y : ℚ) : WithTop ℚ) := by
            simpa [dval] using not_lt.mp hnb
          obtain ⟨qy, hqy, hle⟩ := dval_le_coe hub
          exact ⟨qy, hdy.trans hqy, by linarith⟩
  · -- closed_le_open
    intro x hx qx hqx y hy qy hqy
    have hyo : y ∈ o :: os := List.mem_of_mem_erase hy
    rcases List.mem_append.mp hx with hxc | hxcur
    · rw [(hfro x hxc).1] at hqx
      rcases hpoint y with ⟨hdy, _⟩ | ⟨hyadj, _, _, hdy, _, _⟩
      · rw [hdy] at hqy
        exact inv.closed_le_open x hxc qx hqx y hyo qy hqy
      · rw [hdy] at hqy
        have hqy' : dc + G.w current y = qy := Option.some.inj hqy
        have hxd : qx ≤ dc := inv.closed_le_open x hxc qx hqx current hcurmem dc hdc
        have hw := hnnl y hyadj
        linarith
    · rcases List.mem_singleton.mp hxcur with rfl
      have hqxdc : dc = qx := Option.some.inj (hcur'.symm.trans hqx)
      rcases hpoint y with ⟨hdy, _⟩ | ⟨hyadj, _, _, hdy, _, _⟩
      · rw [hdy] at hqy
        have hmin := selMin_not_lt dist os o y hyo
        rw [hdc, hqy] at hmin
        have : dc ≤ qy := by
          have := not_lt.mp hmin
          simpa [dval, WithTop.coe_le_coe] using this
        linarith
      · rw [hdy] at hqy
        have hqy' : dc + G.w current y = qy := Option.some.inj hqy
        have hw := hnnl y hyadj
        linarith
  · -- prev_closed
    intro n p' hnp'
    rcases hpoint n with ⟨_, hp⟩ | ⟨hnadj, hncl2, hnecur, _, hp, _⟩
    · rw [hp] at hnp'
      obtain ⟨hpc, hord⟩ := inv.prev_closed n p' hnp'
      refine ⟨List.mem_append.mpr (Or.inl hpc), ?_⟩
      intro hncl'
      rcases List.mem_append.mp hncl' with hnc | hncur
      · rw [posIn_append_left _ hpc, posIn_append_left _ hnc]
        exact hord hnc
      · rcases List.mem_singleton.mp hncur with rfl
        rw [posIn_append_left _ hpc, posIn_append_right _ hcurncl]
        have := posIn_lt_length hpc
        simp [posIn]
        omega
    · rw [hp] at hnp'
      have hp'cur : current = p' := Option.some.inj (Option.some.inj hnp')
      subst hp'cur
      refine ⟨List.mem_append.mpr (Or.inr (by simp)), ?_⟩
      intro hncl'
      rcases List.mem_append.mp hncl' with hnc | hncur
      · exact absurd hnc hncl2
      · exact absurd (List.mem_singleton.mp hncur) hnecur
  · -- prev_dist
    intro n p' hnp'
    rcases hpoint n with ⟨hd, hp⟩ | ⟨hnadj, hncl2, hnecur, hd, hp, _⟩
    · rw [hp] at hnp'
      obtain ⟨qn, qp, hqn, hqp, heq⟩ := inv.prev_dist n p' hnp'
      have hpc : p' ∈ closed := (inv.prev_closed n p' hnp').1
      exact ⟨qn, qp, hd.trans hqn, (hfro p' hpc).1.trans hqp, heq⟩
    · rw [hp] at hnp'
      have hp'cur : current = p' := Option.some.inj (Option.some.inj hnp')
      subst hp'cur
      exact ⟨dc + G.w current n, dc, hd, hcur', rfl⟩

theorem map_pair_fst {α : Type} (l : List Node) (f : Node → α) :
    (l.map fun n => (n, f n)).map Prod.fst = l := by
  induction l with
  | nil => rfl
  | cons a rest ih => simp [ih]

/-- The state built before the loop satisfies the invariant. -/
theorem inv_init {G : Graph} {start : Node} (hs : start ∈ G.nodes) :
    EngineInv G start (initDist G start) (initPrev G) [] G.nodes := by
  have hlook : ∀ n ∈ G.nodes,
      alookup (initDist G start) n = some (if n = start then some 0 else none) :=
    fun n hn => alookup_map_of_mem G.nodes _ n hn
  have hlookp : ∀ n ∈ G.nodes, alookup (initPrev G) n = some none :=
    fun n hn => alookup_map_of_mem G.nodes _ n hn
  have hval : ∀ n q, dget (initDist G start) n = some q → n = start ∧ q = 0 := by
    intro n q hq
    by_cases hn : n ∈ G.nodes
    · rw [dget, hlook n hn] at hq
      by_cases hns : n = start
      · rw [if_pos hns] at hq
        exact ⟨hns, (Option.some.inj hq).symm⟩
      · rw [if_neg hns] at hq
        cases hq
    · rw [dget, initDist,
        alookup_map_of_not_mem G.nodes (fun m => if m = start then some 0 else none) n hn] at hq
      cases hq
  have hprevnone : ∀ n p', alookup (initPrev G) n = some (some p') → False := by
    intro n p' hp
    by_cases hn : n ∈ G.nodes
    · rw [hlookp n hn] at hp
      cases Option.some.inj hp
    · rw [initPrev, alookup_map_of_not_mem G.nodes (fun _ => none) n hn] at hp
      cases hp
  refine
    { keys_dist := map_pair_fst _ _
      keys_prev := map_pair_fst _ _
      perm := by simp
      start_zero := by simp [dget, hlook start hs]
      nonneg_dist := fun n q hq => by rw [(hval n q hq).2]
      start_closed := Or.inl rfl
      init_empty := ?_
      reach := ?_
      settled := by intro x hx; cases hx
      edge_ub := by intro x hx; cases hx
      closed_le_open := by intro x hx; cases hx
      prev_closed := fun n p' hp => absurd (hprevnone n p' hp) not_false
      prev_dist := fun n p' hp => absurd (hprevnone n p' hp) not_false }
  · intro _ n hns
    by_cases hn : n ∈ G.nodes
    · rw [dget, hlook n hn, if_neg hns]
      rfl
    · rw [dget, initDist,
        alookup_map_of_not_mem G.nodes (fun m => if m = start then some 0 else none) n hn]
      rfl
  · intro n q hq
    obtain ⟨rfl, rfl⟩ := hval n q hq
    exact ⟨[n], IsPath.base, rfl⟩

/-! ## Per-step consequences of the invariant -/

/-- Invariants of a recorded `Step`'s snapshots. -/
structure StepInv (G : Graph) (start : Node) (st : Step) : Prop where
  keys_dist : st.dist.map Prod.fst = G.nodes
  keys_prev : st.prev.map Prod.fst = G.nodes
  closed_sub : ∀ x ∈ st.closed, x ∈ G.nodes
  closed_nodup : st.closed.Nodup
  settled : ∀ x ∈ st.closed, ∃ q, dget st.dist x = some q ∧ IsShortestDist G start x q
  prev_closed : ∀ n p', alookup st.prev n = some (some p') →
      p' ∈ st.closed ∧ (n ∈ st.closed → posIn p' st.closed < posIn n st.closed)
  prev_dist : ∀ n p', alookup st.prev n = some (some p') →
      ∃ qn qp, dget st.dist n = some qn ∧ dget st.dist p' = some qp ∧ qn = qp + G.w p' n

theorem stepInv_of_inv {G : Graph} {start : Node} {dist prev closed openl}
    (hnd : G.nodes.Nodup) (inv : EngineInv G start dist prev closed openl)
    {it : Nat} {tr : List TryLog} {sel : Option Node} :
    StepInv G start
      { iter := it, trying := tr, selected_node := sel
        closed := closed, dist := dist, prev := prev } :=
  { keys_dist := inv.keys_dist
    keys_prev := inv.keys_prev
    closed_sub := inv_closed_nodes inv
    closed_nodup := (List.nodup_append.mp (inv.perm.symm.nodup hnd)).1
    settled := inv.settled
    prev_closed := inv.prev_closed
    prev_dist := inv.prev_dist }

/-- Every step the loop emits from an invariant-satisfying state satisfies
the per-step invariants. -/
theorem loop_stepInv {G : Graph} {start : Node} (hwf : WF G) (hs : start ∈ G.nodes)
    (goal : Option Node) :
    ∀ (fuel : Nat) (dist : List (Node × DistV)) (prev : List (Node × Option Node))
      (closed openl : List Node) (iter : Nat),
      EngineInv G start dist prev closed openl →
      ∀ st ∈ dijkstraLoop G goal fuel dist prev closed openl iter, StepInv G start st
  | 0, dist, prev, closed, openl, iter => by
    intro _ st hst
    cases hst
  | fuel + 1, dist, prev, closed, [], iter => by
    intro _ st hst
    cases hst
  | fuel + 1, dist, prev, closed, o :: os, iter => by
    intro inv st hst
    by_cases hinf : dget dist (selMin dist o os) = none
    · simp only [dijkstraLoop, hinf, if_pos, List.mem_singleton] at hst
      subst hst
      exact stepInv_of_inv hwf.nodes_nodup inv
    · obtain ⟨dc, hdc⟩ : ∃ dc, dget dist (selMin dist o os) = some dc := by
        cases h : dget dist (selMin dist o os) with
        | none => exact absurd h hinf
        | some q => exact ⟨q, rfl⟩
      have inv' := inv_preserved hwf hs inv hdc
      simp only [dijkstraLoop, hinf, if_false, List.mem_cons] at hst
      rcases hst with rfl | hst
      · exact stepInv_of_inv hwf.nodes_nodup inv'
      · by_cases hgoal : goal = some (selMin dist o os)
        · rw [if_pos hgoal] at hst
          cases hst
        · rw [if_neg hgoal] at hst
          exact loop_stepInv hwf hs goal fuel _ _ _ _ _ inv' st hst

theorem relax_js (G : Graph) (current : Node) (closed : List Node) :
    ∀ (l : List Node) (dist : List (Node × DistV)) (prev : List (Node × Option Node)),
      ((relaxList G current closed l dist prev).1).map (fun t => t.j) = l
  | [], _, _ => rfl
  | nbr :: rest, dist, prev => by
    by_cases hmem : nbr ∈ closed
    · simpa [relaxList, hmem] using relax_js G current closed rest dist prev
    · by_cases hlt : ltE (addE (dget dist current) (G.w current nbr)) (dget dist nbr) = true
      · simpa [relaxList, hmem, hlt] using relax_js G current closed rest
          (aset dist nbr (addE (dget dist current) (G.w current nbr)))
          (aset prev nbr (some current))
      · simpa [relaxList, hmem, hlt] using relax_js G current closed rest dist prev

theorem dropLast_snoc : ∀ (l : List Node) (a : Node), (l ++ [a]).dropLast = l
  | [], _ => rfl
  | [b], a => rfl
  | b :: c :: rest, a => by
    have ih := dropLast_snoc (c :: rest) a
    simp only [List.cons_append] at ih ⊢
    rw [List.dropLast_cons₂, ih]

/-- Characterization of the `trying` log of a step with a selected node:
exactly one entry per neighbor of the selected node, in enumeration order,
built from the selected node's final distance and the previously finalized
set (`st.closed.dropLast`). -/
theorem loop_trying {G : Graph} {start : Node} (hwf : WF G) (hs : start ∈ G.nodes)
    (goal : Option Node) :
    ∀ (fuel : Nat) (dist : List (Node × DistV)) (prev : List (Node × Option Node))
      (closed openl : List Node) (iter : Nat),
      EngineInv G start dist prev closed openl →
      ∀ st ∈ dijkstraLoop G goal fuel dist prev closed openl iter,
        ∀ c, st.selected_node = some c →
          ∃ dc, dget st.dist c = some dc ∧
            st.closed = st.closed.dropLast ++ [c] ∧
            st.trying = (G.adj c).map (mkLog G c st.closed.dropLast dc)
  | 0, dist, prev, closed, openl, iter => by
    intro _ st hst
    cases hst
  | fuel + 1, dist, prev, closed, [], iter => by
    intro _ st hst
    cases hst
  | fuel + 1, dist, prev, closed, o :: os, iter => by
    intro inv st hst
    by_cases hinf : dget dist (selMin dist o os) = none
    · simp only [dijkstraLoop, hinf, if_pos, List.mem_singleton] at hst
      subst hst
      intro c hc
      cases hc
    · obtain ⟨dc, hdc⟩ : ∃ dc, dget dist (selMin dist o os) = some dc := by
        cases h : dget dist (selMin dist o os) with
        | none => exact absurd h hinf
        | some q => exact ⟨q, rfl⟩
      have inv' := inv_preserved hwf hs inv hdc
      simp only [dijkstraLoop, hinf, if_false, List.mem_cons] at hst
      rcases hst with rfl | hst
      · intro c hc
        have hc' : selMin dist o os = c := Option.some.inj hc
        subst hc'
        set current := selMin dist o os
        have hcurmem : current ∈ o :: os := selMin_mem dist os o
        have hcurnodes : current ∈ G.nodes := inv_open_nodes inv current hcurmem
        have hnnl : ∀ m ∈ G.adj current, 0 ≤ G.w current m :=
          hwf.w_nonneg current hcurnodes
        refine ⟨dc, relax_current G current closed (G.adj current) dist prev hdc hnnl, ?_, ?_⟩
        · simp [dropLast_snoc]
        · have hlogs := relax_logs G current closed (G.adj current) dist prev hdc hnnl
          simpa [dropLast_snoc] using hlogs
      · by_cases hgoal : goal = some (selMin dist o os)
        · rw [if_pos hgoal] at hst
          cases hst
        · rw [if_neg hgoal] at hst
          exact loop_trying hwf hs goal fuel _ _ _ _ _ inv' st hst

/-! ## Step-to-step relations across the recorded sequence -/

/-- Relation between consecutive snapshots: a terminal step copies the
state verbatim with an empty log; a selecting step appends exactly its
selected node to the finalized set; distances never increase; distances of
already-finalized nodes are frozen. -/
def StepRel (s t : Step) : Prop :=
  (t.selected_node = none →
      t.trying = [] ∧ t.closed = s.closed ∧ t.dist = s.dist ∧ t.prev = s.prev) ∧
  (∀ c, t.selected_node = some c → t.closed = s.closed ++ [c]) ∧
  (∀ n, dval (dget t.dist n) ≤ dval (dget s.dist n)) ∧
  (∀ n ∈ s.closed, dget t.dist n = dget s.dist n)

theorem loop_chain (G : Graph) (goal : Option Node) :
    ∀ (fuel : Nat) (dist : List (Node × DistV)) (prev : List (Node × Option Node))
      (closed openl : List Node) (iter it0 : Nat) (tr0 : List TryLog)
      (sel0 : Option Node),
      List.Chain' StepRel
        (({ iter := it0, trying := tr0, selected_node := sel0
            closed := closed, dist := dist, prev := prev } : Step)
          :: dijkstraLoop G goal fuel dist prev closed openl iter)
  | 0, dist, prev, closed, openl, iter, it0, tr0, sel0 => by
    simp [dijkstraLoop]
  | fuel + 1, dist, prev, closed, [], iter, it0, tr0, sel0 => by
    simp [dijkstraLoop]
  | fuel + 1, dist, prev, closed, o :: os, iter, it0, tr0, sel0 => by
    by_cases hinf : dget dist (selMin dist o os) = none
    · simp only [dijkstraLoop, hinf, if_pos]
      refine List.chain'_pair.mpr
        ⟨fun _ => ⟨rfl, rfl, rfl, rfl⟩, ?_, fun n => le_refl _, fun n _ => rfl⟩
      intro c hc
      exact absurd hc (by simp)
    · simp only [dijkstraLoop, hinf, if_false]
      set current := selMin dist o os
      set R := relaxList G current closed (G.adj current) dist prev
      have hrel : StepRel
          ({ iter := it0, trying := tr0, selected_node := sel0
             closed := closed, dist := dist, prev := prev } : Step)
          ({ iter := iter + 1, trying := R.1, selected_node := some current
             closed := closed ++ [current], dist := R.2.1, prev := R.2.2 } : Step) := by
        refine ⟨?_, ?_, ?_, ?_⟩
        · intro h
          exact absurd h (by simp)
        · intro c hc
          have : current = c := by simpa using hc
          rw [this]
        · exact fun n => relax_mono G current closed (G.adj current) dist prev n
        · exact fun n hn => (relax_frozen G current closed (G.adj current) dist prev n hn).1
      by_cases hgoal : goal = some current
      · rw [if_pos hgoal]
        exact List.chain'_pair.mpr hrel
      · rw [if_neg hgoal]
        refine List.Chain'.cons hrel ?_
        exact loop_chain G goal fuel R.2.1 R.2.2 (closed ++ [current])
          ((o :: os).erase current) (iter + 1) (iter + 1) R.1 (some current)

/-- A step with no selected node is the last step of the sequence. -/
theorem loop_none_last (G : Graph) (goal : Option Node) :
    ∀ (fuel : Nat) (dist : List (Node × DistV)) (prev : List (Node × Option Node))
      (closed openl : List Node) (iter : Nat) (pre : List Step) (st : Step)
      (suf : List Step),
      dijkstraLoop G goal fuel dist prev closed openl iter = pre ++ st :: suf →
      st.selected_node = none → suf = []
  | 0, dist, prev, closed, openl, iter, pre, st, suf => by
    intro h _
    rw [dijkstraLoop] at h
    cases pre <;> simp at h
  | fuel + 1, dist, prev, closed, [], iter, pre, st, suf => by
    intro h _
    rw [dijkstraLoop] at h
    cases pre <;> simp at h
  | fuel + 1, dist, prev, closed, o :: os, iter, pre, st, suf => by
    intro h hsel
    by_cases hinf : dget dist (selMin dist o os) = none
    · simp only [dijkstraLoop, hinf, if_pos] at h
      cases pre with
      | nil =>
        simp only [List.nil_append, List.cons.injEq] at h
        exact h.2.symm
      | cons a pre' =>
        simp only [List.cons_append, List.cons.injEq] at h
        exact absurd h.2.symm (by simp)
    · simp only [dijkstraLoop, hinf, if_false] at h
      cases pre with
      | nil =>
        simp only [List.nil_append, List.cons.injEq] at h
        have := h.1
        rw [← this] at hsel
        simp at hsel
      | cons a pre' =>
        simp only [List.cons_append, List.cons.injEq] at h
        by_cases hgoal : goal = some (selMin dist o os)
        · rw [if_pos hgoal] at h
          exact absurd h.2.symm (by simp)
        · rw [if_neg hgoal] at h
          exact loop_none_last G goal fuel _ _ _ _ _ pre' st suf h.2 hsel

/-- When a goal is supplied, the step that finalizes it is the last step. -/
theorem loop_goal_last (G : Graph) (gl : Node) :
    ∀ (fuel : Nat) (dist : List (Node × DistV)) (prev : List (Node × Option Node))
      (closed openl : List Node) (iter : Nat) (pre : List Step) (st : Step)
      (suf : List Step),
      dijkstraLoop G (some gl) fuel dist prev closed openl iter = pre ++ st :: suf →
      st.selected_node = some gl → suf = []
  | 0, dist, prev, closed, openl, iter, pre, st, suf => by
    intro h _
    rw [dijkstraLoop] at h
    cases pre <;> simp at h
  | fuel + 1, dist, prev, closed, [], iter, pre, st, suf => by
    intro h _
    rw [dijkstraLoop] at h
    cases pre <;> simp at h
  | fuel + 1, dist, prev, closed, o :: os, iter, pre, st, suf => by
    intro h hsel
    by_cases hinf : dget dist (selMin dist o os) = none
    · simp only [dijkstraLoop, hinf, if_pos] at h
      cases pre with
      | nil =>
        simp only [List.nil_append, List.cons.injEq] at h
        rw [← h.1] at hsel
        simp at hsel
      | cons a pre' =>
        simp only [List.cons_append, List.cons.injEq] at h
        exact absurd h.2.symm (by simp)
    · simp only [dijkstraLoop, hinf, if_false] at h
      cases pre with
      | nil =>
        simp only [List.nil_append, List.cons.injEq] at h
        have hcur : selMin dist o os = gl := by
          rw [← h.1] at hsel
          simpa using hsel
        rw [if_pos (by rw [hcur])] at h
        exact h.2.symm
      | cons a pre' =>
        simp only [List.cons_append, List.cons.injEq] at h
        by_cases hgoal : (some gl : Option Node) = some (selMin dist o os)
        · rw [if_pos hgoal] at h
          exact absurd h.2.symm (by simp)
        · rw [if_neg hgoal] at h
          exact loop_goal_last G gl fuel _ _ _ _ _ pre' st suf h.2 hsel

/-- Each selecting step grows the finalized set to exactly (initial size +
position + 1): one new node per recorded step. -/
theorem loop_closed_count (G : Graph) (goal : Option Node) :
    ∀ (fuel : Nat) (dist : List (Node × DistV)) (prev : List (Node × Option Node))
      (closed openl : List Node) (iter : Nat) (pre : List Step) (st : Step)
      (suf : List Step),
      dijkstraLoop G goal fuel dist prev closed openl iter = pre ++ st :: suf →
      ∀ c, st.selected_node = some c →
        st.closed.length = closed.length + pre.length + 1
  | 0, dist, prev, closed, openl, iter, pre, st, suf => by
    intro h
    rw [dijkstraLoop] at h
    cases pre <;> simp at h
  | fuel + 1, dist, prev, closed, [], iter, pre, st, suf => by
    intro h
    rw [dijkstraLoop] at h
    cases pre <;> simp at h
  | fuel + 1, dist, prev, closed, o :: os, iter, pre, st, suf => by
    intro h c hsel
    by_cases hinf : dget dist (selMin dist o os) = none
    · simp only [dijkstraLoop, hinf, if_pos] at h
      cases pre with
      | nil =>
        simp only [List.nil_append, List.cons.injEq] at h
        rw [← h.1] at hsel
        simp at hsel
      | cons a pre' =>
        simp only [List.cons_append, List.cons.injEq] at h
        exact absurd h.2.symm (by simp)
    · simp only [dijkstraLoop, hinf, if_false] at h
      cases pre with
      | nil =>
        simp only [List.nil_append, List.cons.injEq] at h
        rw [← h.1]
        simp
      | cons a pre' =>
        simp only [List.cons_append, List.cons.injEq] at h
        by_cases hgoal : goal = some (selMin dist o os)
        · rw [if_pos hgoal] at h
          exact absurd h.2.symm (by simp)
        · rw [if_neg hgoal] at h
          have := loop_closed_count G goal fuel _ _ _ _ _ pre' st suf h.2 c hsel
          simp only [List.length_append, List.length_singleton] at this
          simp only [List.length_cons]
          omega

/-- A node that never occurs as the target of a logged relaxation attempt
keeps its incoming distance in every recorded step. -/
theorem loop_dist_unrelaxed (G : Graph) (goal : Option Node) :
    ∀ (fuel : Nat) (dist : List (Node × DistV)) (prev : List (Node × Option Node))
      (closed openl : List Node) (iter : Nat) (n : Node),
      (∀ st ∈ dijkstraLoop G goal fuel dist prev closed openl iter,
        ∀ t ∈ st.trying, t.j ≠ n) →
      ∀ st ∈ dijkstraLoop G goal fuel dist prev closed openl iter,
        dget st.dist n = dget dist n
  | 0, dist, prev, closed, openl, iter, n => by
    intro _ st hst
    cases hst
  | fuel + 1, dist, prev, closed, [], iter, n => by
    intro _ st hst
    cases hst
  | fuel + 1, dist, prev, closed, o :: os, iter, n => by
    intro hno st hst
    by_cases hinf : dget dist (selMin dist o os) = none
    · simp only [dijkstraLoop, hinf, if_pos, List.mem_singleton] at hst
      subst hst
      rfl
    · set current := selMin dist o os
      set R := relaxList G current closed (G.adj current) dist prev with hR
      have hnadj : n ∉ G.adj current := by
        intro hmem
        have hjs := relax_js G current closed (G.adj current) dist prev
        rw [← hjs] at hmem
        obtain ⟨t, ht, htj⟩ := List.mem_map.mp hmem
        have hstep :
            ({ iter := iter + 1, trying := R.1, selected_node := some current,
               closed := closed ++ [current], dist := R.2.1, prev := R.2.2 } : Step) ∈
              dijkstraLoop G goal (fuel + 1) dist prev closed (o :: os) iter := by
          simp [dijkstraLoop, hinf]
        exact hno _ hstep t ht htj
      have hkeep : dget R.2.1 n = dget dist n :=
        (relax_notin G current closed (G.adj current) dist prev n hnadj).1
      simp only [dijkstraLoop, hinf, if_false, List.mem_cons] at hst
      rcases hst with rfl | hst
      · exact hkeep
      · by_cases hgoal : goal = some current
        · rw [if_pos hgoal] at hst
          cases hst
        · rw [if_neg hgoal] at hst
          have hno' : ∀ st' ∈ dijkstraLoop G goal fuel R.2.1 R.2.2 (closed ++ [current])
              ((o :: os).erase current) (iter + 1), ∀ t ∈ st'.trying, t.j ≠ n := by
            intro st' hst' t ht
            refine hno st' ?_ t ht
            simp only [dijkstraLoop, hinf, if_false, List.mem_cons]
            rw [if_neg hgoal]
            exact Or.inr hst'
          have := loop_dist_unrelaxed G goal fuel _ _ _ _ _ n hno' st hst
          rw [this, hkeep]

/-! ## The backward walk of `reconstruct_path` -/

/-- The backward walk from a node through the predecessor map: `c` is the
list of visited nodes and the flag tells whether it reached `start`
(`true`) or stopped at an absent (`None`) predecessor (`false`). -/
inductive Trace (prev : List (Node × Option Node)) (start : Node) :
    Node → List Node → Bool → Prop
  | reach : Trace prev start start [start] true
  | brk {n : Node} : n ≠ start → alookup prev n = some none →
      Trace prev start n [n] false
  | step {n p : Node} {c : List Node} {b : Bool} : n ≠ start →
      alookup prev n = some (some p) → Trace prev start p c b →
      Trace prev start n (n :: c) b

theorem trace_unique {prev : List (Node × Option Node)} {start : Node} :
    ∀ {n : Node} {c c' : List Node} {b b' : Bool},
      Trace prev start n c b → Trace prev start n c' b' → c = c' ∧ b = b' := by
  intro n c c' b b' h h'
  induction h generalizing c' b' with
  | reach =>
    cases h' with
    | reach => exact ⟨rfl, rfl⟩
    | brk hne _ => exact absurd rfl hne
    | step hne _ _ => exact absurd rfl hne
  | brk hne hl =>
    cases h' with
    | reach => exact absurd rfl hne
    | brk _ _ => exact ⟨rfl, rfl⟩
    | step _ hl' _ =>
      rw [hl] at hl'
      cases Option.some.inj hl'
  | step hne hl htail ih =>
    cases h' with
    | reach => exact absurd rfl hne
    | brk _ hl' =>
      rw [hl] at hl'
      cases Option.some.inj hl'
    | step _ hl' htail' =>
      rw [hl] at hl'
      have hp := Option.some.inj (Option.some.inj hl')
      subst hp
      obtain ⟨hc, hb⟩ := ih htail'
      exact ⟨by rw [hc], hb⟩

theorem trace_mem_suffix {prev : List (Node × Option Node)} {start : Node} :
    ∀ {m : Node} {c : List Node} {b : Bool}, Trace prev start m c b →
      ∀ x ∈ c, ∃ s, Trace prev start x s b ∧ s.length ≤ c.length := by
  intro m c b h
  induction h with
  | reach =>
    intro x hx
    rcases List.mem_singleton.mp hx with rfl
    exact ⟨[x], Trace.reach, le_refl _⟩
  | brk hne hl =>
    intro x hx
    rcases List.mem_singleton.mp hx with rfl
    exact ⟨[x], Trace.brk hne hl, le_refl _⟩
  | step hne hl htail ih =>
    intro x hx
    rcases List.mem_cons.mp hx with rfl | hx
    · exact ⟨_, Trace.step hne hl htail, le_refl _⟩
    · obtain ⟨s, hs, hlen⟩ := ih x hx
      exact ⟨s, hs, le_trans hlen (by simp)⟩

theorem trace_nodup {prev : List (Node × Option Node)} {start : Node} :
    ∀ {n : Node} {c : List Node} {b : Bool}, Trace prev start n c b → c.Nodup := by
  intro n c b h
  induction h with
  | reach => simp
  | brk _ _ => simp
  | @step n p c b hne hl htail ih =>
    refine List.nodup_cons.mpr ⟨?_, ih⟩
    intro hmem
    obtain ⟨s, hs, hlen⟩ := trace_mem_suffix htail n hmem
    obtain ⟨hc, _⟩ := trace_unique hs (Trace.step hne hl htail)
    rw [hc] at hlen
    simp at hlen

theorem trace_keys {prev : List (Node × Option Node)} {start : Node} :
    ∀ {n : Node} {c : List Node} {b : Bool}, Trace prev start n c b →
      ∀ x ∈ c, x = start ∨ x ∈ prev.map Prod.fst := by
  intro n c b h
  induction h with
  | reach =>
    intro x hx
    exact Or.inl (List.mem_singleton.mp hx)
  | brk _ hl =>
    intro x hx
    rcases List.mem_singleton.mp hx with rfl
    exact Or.inr ((alookup_isSome_iff_mem _ _).mp (by simp [hl]))
  | step _ hl _ ih =>
    intro x hx
    rcases List.mem_cons.mp hx with rfl | hx
    · exact Or.inr ((alookup_isSome_iff_mem _ _).mp (by simp [hl]))
    · exact ih x hx

theorem trace_len_le {prev : List (Node × Option Node)} {start : Node}
    {n : Node} {c : List Node} {b : Bool} (h : Trace prev start n c b) :
    c.length ≤ prev.length + 1 := by
  have hnd := trace_nodup h
  have hsub : ∀ x ∈ c, x ∈ start :: prev.map Prod.fst := by
    intro x hx
    rcases trace_keys h x hx with rfl | hx'
    · exact List.mem_cons_self _ _
    · exact List.mem_cons_of_mem _ hx'
  have h1 : c.length = c.toFinset.card := (List.toFinset_card_of_nodup hnd).symm
  have h2 : c.toFinset ⊆ (start :: prev.map Prod.fst).toFinset := by
    intro x hx
    exact List.mem_toFinset.mpr (hsub x (List.mem_toFinset.mp hx))
  have h3 := Finset.card_le_card h2
  have h4 := List.toFinset_card_le (start :: prev.map Prod.fst)
  simp only [List.length_cons, List.length_map] at h4
  omega

theorem rpGo_trace {prev : List (Node × Option Node)} {start : Node} :
    ∀ {n : Node} {c : List Node} {b : Bool}, Trace prev start n c b →
      ∀ (fuel : Nat) (acc : List Node), c.length ≤ fuel →
        rpGo prev start fuel n acc =
          if b then .ok ((acc ++ c).reverse) else .ok [] := by
  intro n c b h
  induction h with
  | reach =>
    intro fuel acc hlen
    match fuel with
    | 0 => simp at hlen
    | f + 1 => simp [rpGo]
  | brk hne hl =>
    intro fuel acc hlen
    match fuel with
    | 0 => simp at hlen
    | f + 1 => simp [rpGo, hne, hl]
  | @step m p c b hne hl htail ih =>
    intro fuel acc hlen
    match fuel with
    | 0 => simp at hlen
    | f + 1 =>
      have hlen' : c.length ≤ f := by
        simp only [List.length_cons] at hlen
        omega
      have := ih f (acc ++ [m]) hlen'
      simp only [rpGo, hne, if_neg hne, hl]
      rw [this]
      cases b with
      | false => rfl
      | true => simp

/-- On a predecessor map whose `Some` entries point strictly backwards in
the finalization order, the backward walk from any key terminates. -/
theorem trace_exists {prev : List (Node × Option Node)} {start : Node}
    {closed : List Node}
    (hck : ∀ x ∈ closed, x ∈ prev.map Prod.fst)
    (hpc : ∀ n p', alookup prev n = some (some p') →
        p' ∈ closed ∧ (n ∈ closed → posIn p' closed < posIn n closed)) :
    ∀ (m : Nat) (n : Node), n ∈ prev.map Prod.fst →
      (if n ∈ closed then posIn n closed else closed.length) < m →
      ∃ c b, Trace prev start n c b := by
  intro m
  induction m with
  | zero => intro n _ hm; omega
  | succ m ih =>
    intro n hkey hm
    by_cases hns : n = start
    · subst hns
      exact ⟨[n], true, Trace.reach⟩
    · obtain ⟨v, hv⟩ : ∃ v, alookup prev n = some v := by
        have := (alookup_isSome_iff_mem prev n).mpr hkey
        cases hl : alookup prev n with
        | none => rw [hl] at this; cases this
        | some v => exact ⟨v, rfl⟩
      cases v with
      | none => exact ⟨[n], false, Trace.brk hns hv⟩
      | some p =>
        obtain ⟨hpcl, hord⟩ := hpc n p hv
        have hplt : posIn p closed < m := by
          by_cases hncl : n ∈ closed
          · have h1 := hord hncl
            rw [if_pos hncl] at hm
            omega
          · rw [if_neg hncl] at hm
            have h1 := posIn_lt_length hpcl
            omega
        have hmp : (if p ∈ closed then posIn p closed else closed.length) < m := by
          rw [if_pos hpcl]
          exact hplt
        obtain ⟨c, b, htr⟩ := ih p (hck p hpcl) hmp
        exact ⟨n :: c, b, Trace.step hns hv htr⟩

/-! ## Helpers for the claim-level theorems -/

theorem ok_start_mem {G : Graph} {start : Node} {goal : Option Node} {steps : List Step}
    (hok : dijkstra_steps G start goal = .ok steps) :
    start ∈ G.nodes ∧
      steps = dijkstraLoop G goal G.nodes.length (initDist G start) (initPrev G)
        [] G.nodes 0 := by
  by_cases hs : start ∈ G.nodes
  · rw [dijkstra_steps, if_pos hs] at hok
    exact ⟨hs, (Except.ok.inj hok).symm⟩
  · rw [dijkstra_steps, if_neg hs] at hok
    cases hok

theorem list_split_at {α : Type} :
    ∀ (l : List α) (i : Nat) (h : i < l.length),
      l = l.take i ++ l.get ⟨i, h⟩ :: l.drop (i + 1)
  | [], i, h => by simp at h
  | a :: rest, 0, h => by simp
  | a :: rest, i + 1, h => by
    have ih := list_split_at rest i (by simpa using h)
    simp only [List.take_succ_cons, List.get_cons_succ, List.drop_succ_cons,
      List.cons_append]
    exact congrArg (a :: ·) ih

theorem stepRel_closed_sub {s t : Step} (h : StepRel s t) : s.closed ⊆ t.closed := by
  cases hsel : t.selected_node with
  | none =>
    rw [(h.1 hsel).2.1]
    exact fun x hx => hx
  | some c =>
    rw [h.2.1 c hsel]
    exact fun x hx => List.mem_append.mpr (Or.inl hx)

theorem chain_frozen (l : List Step) (hl : List.Chain' StepRel l) (i : Nat)
    (hi : i < l.length) (n : Node) :
    ∀ (j : Nat) (hj : j < l.length), i ≤ j → n ∈ (l.get ⟨i, hi⟩).closed →
      n ∈ (l.get ⟨j, hj⟩).closed ∧
        dget (l.get ⟨j, hj⟩).dist n = dget (l.get ⟨i, hi⟩).dist n := by
  intro j
  induction j with
  | zero =>
    intro hj hij hn
    have h0 : i = 0 := Nat.le_zero.mp hij
    subst h0
    exact ⟨hn, rfl⟩
  | succ j ihj =>
    intro hj hij hn
    by_cases hij' : i = j + 1
    · subst hij'
      exact ⟨hn, rfl⟩
    · have hij2 : i ≤ j := by omega
      have hjlt : j < l.length := by omega
      obtain ⟨hmem, hdist⟩ := ihj hjlt hij2 hn
      have hR : StepRel (l.get ⟨j, hjlt⟩) (l.get ⟨j + 1, hj⟩) :=
        List.chain'_iff_get.mp hl j (by omega)
      refine ⟨stepRel_closed_sub hR hmem, ?_⟩
      rw [hR.2.2.2 n hmem, hdist]

theorem initDist_ne_start {G : Graph} {start n : Node} (hns : n ≠ start) :
    dget (initDist G start) n = none := by
  by_cases hn : n ∈ G.nodes
  · rw [dget, initDist, alookup_map_of_mem G.nodes _ n hn, if_neg hns]
    rfl
  · rw [dget, initDist,
      alookup_map_of_not_mem G.nodes (fun m => if m = start then some 0 else none) n hn]
    rfl

/-! ## The claims -/

/-- C1: for every well-formed graph (non-negative weights) and start node
in the graph, in every Step of the sequence returned by `dijkstra_steps`
the distance recorded for any node of that Step's finalized (`closed`) set
is finite and equals the true shortest-path distance from `start`. -/
theorem dijkstra_finalized_shortest (G : Graph) (start : Node) (goal : Option Node)
    (steps : List Step) (hwf : WF G) (hok : dijkstra_steps G start goal = .ok steps) :
    ∀ st ∈ steps, ∀ n ∈ st.closed,
      ∃ d, dget st.dist n = some d ∧ IsShortestDist G start n d := by
  obtain ⟨hs, hsteps⟩ := ok_start_mem hok
  subst hsteps
  intro st hst n hn
  exact (loop_stepInv hwf hs goal _ _ _ _ _ _ (inv_init hs) st hst).settled n hn

/-- C3: `dijkstra_steps` fails (raises `ValueError`, the
`InvalidNodeReference` condition) exactly when `start` is not a node of
the graph; on failure no step list is produced at all (the error carries
no partial `StepSequence`), and for a start in the graph it returns
normally. -/
theorem dijkstra_steps_error_iff (G : Graph) (start : Node) (goal : Option Node) :
    ((∃ e, dijkstra_steps G start goal = .error e) ↔ start ∉ G.nodes) ∧
    (start ∈ G.nodes → ∃ steps, dijkstra_steps G start goal = .ok steps) := by
  refine ⟨⟨?_, ?_⟩, ?_⟩
  · rintro ⟨e, he⟩ hs
    rw [dijkstra_steps, if_pos hs] at he
    cases he
  · intro hs
    rw [dijkstra_steps, if_neg hs]
    exact ⟨_, rfl⟩
  · intro hs
    rw [dijkstra_steps, if_pos hs]
    exact ⟨_, rfl⟩

/-- C8: in every recorded Step, the distance and predecessor snapshots are
mutually consistent: a node `n` with recorded predecessor `p` has
`dist[n] = dist[p] + w(p, n)`. -/
theorem dist_prev_consistent (G : Graph) (start : Node) (goal : Option Node)
    (steps : List Step) (hwf : WF G) (hok : dijkstra_steps G start goal = .ok steps) :
    ∀ st ∈ steps, ∀ n p, alookup st.prev n = some (some p) →
      ∃ dn dp, dget st.dist n = some dn ∧ dget st.dist p = some dp ∧
        dn = dp + G.w p n := by
  obtain ⟨hs, hsteps⟩ := ok_start_mem hok
  subst hsteps
  intro st hst n p hnp
  exact (loop_stepInv hwf hs goal _ _ _ _ _ _ (inv_init hs) st hst).prev_dist n p hnp

/-- C2: `reconstruct_path` returns `[start]` when the goal is the start;
when the backward walk through `prev` reaches `start` it returns the walk
reversed (start-to-goal order); and when the walk stops at an absent
(`None`) predecessor before reaching `start` it returns the empty list as
the normal "no path" signal, not an error. -/
theorem reconstruct_path_spec (prev : List (Node × Option Node)) (start goal : Node)
    (c : List Node) :
    reconstruct_path prev start start = .ok [start] ∧
    (Trace prev start goal c true → reconstruct_path prev start goal = .ok c.reverse) ∧
    (Trace prev start goal c false → reconstruct_path prev start goal = .ok []) := by
  refine ⟨?_, ?_, ?_⟩
  · rw [reconstruct_path]
    simp [rpGo]
  · intro htr
    have h := rpGo_trace htr (prev.length + 1) [] (trace_len_le htr)
    rw [if_pos rfl] at h
    simpa [reconstruct_path] using h
  · intro htr
    have h := rpGo_trace htr (prev.length + 1) [] (trace_len_le htr)
    simpa [reconstruct_path] using h

/-- C10: when the goal differs from the start and is not a key of the
predecessor dict, `reconstruct_path` raises a `KeyError` (modelled as
`PathResult.keyError goal`) instead of returning the empty "no path"
sequence. -/
theorem reconstruct_keyerror_on_missing_goal (prev : List (Node × Option Node))
    (start goal : Node) (hne : goal ≠ start) (hkey : goal ∉ prev.map Prod.fst) :
    reconstruct_path prev start goal = .keyError goal := by
  have halk : alookup prev goal = none := by
    cases hl : alookup prev goal with
    | none => rfl
    | some v =>
      exact absurd ((alookup_isSome_iff_mem prev goal).mp (by simp [hl])) hkey
  rw [reconstruct_path]
  simp [rpGo, hne, halk]

/-- The pseudo-step carrying the state entering the loop, used to relate
the first recorded Step to the initial state. -/
def entryStep (dist : List (Node × DistV)) (prev : List (Node × Option Node))
    (closed : List Node) : Step :=
  { iter := 0, trying := [], selected_node := none
    closed := closed, dist := dist, prev := prev }

theorem chain_of_ok {G : Graph} {start : Node} {goal : Option Node} {steps : List Step}
    (hok : dijkstra_steps G start goal = .ok steps) :
    List.Chain' StepRel (entryStep (initDist G start) (initPrev G) [] :: steps) := by
  obtain ⟨hs, hsteps⟩ := ok_start_mem hok
  rw [hsteps]
  exact loop_chain G goal _ _ _ _ _ 0 0 [] none

/-- C5: a Step with no selected node (recorded when the minimum-distance
open node is at `+∞`) is terminal: it has an empty attempts list, it is
the last Step of the sequence, and its finalized set and
distance/predecessor snapshots are exactly those of the preceding Step
(the initial state when it is the first Step) — no node is finalized by
it and no Step follows it. -/
theorem terminal_step_spec (G : Graph) (start : Node) (goal : Option Node)
    (steps : List Step) (hok : dijkstra_steps G start goal = .ok steps) :
    ∀ (i : Nat) (hi : i < steps.length), (steps.get ⟨i, hi⟩).selected_node = none →
      (steps.get ⟨i, hi⟩).trying = [] ∧
      i + 1 = steps.length ∧
      (i = 0 → (steps.get ⟨i, hi⟩).closed = [] ∧
        (steps.get ⟨i, hi⟩).dist = initDist G start ∧
        (steps.get ⟨i, hi⟩).prev = initPrev G) ∧
      (∀ j, j + 1 = i → ∀ (hj : j < steps.length),
        (steps.get ⟨i, hi⟩).closed = (steps.get ⟨j, hj⟩).closed ∧
        (steps.get ⟨i, hi⟩).dist = (steps.get ⟨j, hj⟩).dist ∧
        (steps.get ⟨i, hi⟩).prev = (steps.get ⟨j, hj⟩).prev) := by
  obtain ⟨hs, hsteps⟩ := ok_start_mem hok
  intro i hi hsel
  have hchain := chain_of_ok hok
  have hstep : StepRel
      ((entryStep (initDist G start) (initPrev G) [] :: steps).get ⟨i, by simp; omega⟩)
      (steps.get ⟨i, hi⟩) := by
    have h := List.chain'_iff_get.mp hchain i (by simp; omega)
    simpa using h
  have hcopy := hstep.1 hsel
  refine ⟨hcopy.1, ?_, ?_, ?_⟩
  · -- last step
    have hsplit := list_split_at steps i hi
    have hnil := loop_none_last G goal _ _ _ _ _ _ (steps.take i) (steps.get ⟨i, hi⟩)
      (steps.drop (i + 1)) (by rw [← hsteps]; exact hsplit) hsel
    have hlen := congrArg List.length hsplit
    simp only [List.length_append, List.length_cons, hnil, List.length_nil,
      List.length_take] at hlen
    omega
  · -- first step: snapshots are the initial state
    intro h0
    subst h0
    simpa [entryStep] using ⟨hcopy.2.1, hcopy.2.2.1, hcopy.2.2.2⟩
  · -- later step: snapshots are the previous step's
    intro j hj hjlt
    have hget : (entryStep (initDist G start) (initPrev G) [] :: steps).get
        ⟨i, by simp; omega⟩ = steps.get ⟨j, hjlt⟩ := by
      have hij : i = j + 1 := hj.symm
      subst hij
      simp
    rw [hget] at hstep
    have hcopy' := hstep.1 hsel
    exact ⟨hcopy'.2.1, hcopy'.2.2.1, hcopy'.2.2.2⟩

/-- C7: across the recorded sequence each node's distance is
non-increasing from one Step to the next, and once a node belongs to a
Step's finalized set its recorded distance is identical in that Step and
every later Step. -/
theorem dist_monotone_spec (G : Graph) (start : Node) (goal : Option Node)
    (steps : List Step) (hok : dijkstra_steps G start goal = .ok steps) :
    ∀ (i : Nat) (hi : i + 1 < steps.length) (n : Node),
      leE (dget (steps.get ⟨i + 1, hi⟩).dist n)
          (dget (steps.get ⟨i, by omega⟩).dist n) = true ∧
      ∀ (j : Nat) (hj : j < steps.length), i ≤ j →
        n ∈ (steps.get ⟨i, by omega⟩).closed →
        dget (steps.get ⟨j, hj⟩).dist n = dget (steps.get ⟨i, by omega⟩).dist n := by
  intro i hi n
  have hchain' : List.Chain' StepRel steps := (chain_of_ok hok).tail
  constructor
  · have hR := List.chain'_iff_get.mp hchain' i (by omega)
    exact (leE_iff _ _).mpr (hR.2.2.1 n)
  · intro j hj hij hn
    exact (chain_frozen steps hchain' i (by omega) n j hj hij hn).2

/-- C6: when a goal is supplied and some Step finalizes it, that Step is
the last one; the sequence length equals the number of finalizations up to
and including the goal (the size of the final finalized set), strictly
less than the node count when some node is left unfinalized; and any
non-start node that was never the target of a logged relaxation attempt
still has distance `+∞` in that final Step. -/
theorem goal_early_termination (G : Graph) (start gl : Node) (steps : List Step)
    (hwf : WF G) (hok : dijkstra_steps G start (some gl) = .ok steps) :
    ∀ (i : Nat) (hi : i < steps.length), (steps.get ⟨i, hi⟩).selected_node = some gl →
      i + 1 = steps.length ∧
      steps.length = (steps.get ⟨i, hi⟩).closed.length ∧
      gl ∈ (steps.get ⟨i, hi⟩).closed ∧
      ((∃ m ∈ G.nodes, m ∉ (steps.get ⟨i, hi⟩).closed) →
        steps.length < G.nodes.length) ∧
      (∀ n, n ≠ start → (∀ st ∈ steps, ∀ t ∈ st.trying, t.j ≠ n) →
        dget (steps.get ⟨i, hi⟩).dist n = none) := by
  obtain ⟨hs, hsteps⟩ := ok_start_mem hok
  intro i hi hsel
  have hsplit := list_split_at steps i hi
  have hlast : steps.drop (i + 1) = [] :=
    loop_goal_last G gl _ _ _ _ _ _ (steps.take i) (steps.get ⟨i, hi⟩)
      (steps.drop (i + 1)) (by rw [← hsteps]; exact hsplit) hsel
  have hlen : i + 1 = steps.length := by
    have h := congrArg List.length hsplit
    simp only [List.length_append, List.length_cons, hlast, List.length_nil,
      List.length_take] at h
    omega
  have hcount : (steps.get ⟨i, hi⟩).closed.length = i + 1 := by
    have h := loop_closed_count G (some gl) _ _ _ _ _ _ (steps.take i)
      (steps.get ⟨i, hi⟩) (steps.drop (i + 1)) (by rw [← hsteps]; exact hsplit)
      gl hsel
    simp only [List.length_nil, List.length_take] at h
    omega
  have hinv := loop_stepInv hwf hs (some gl) _ _ _ _ _ _ (inv_init hs)
    (steps.get ⟨i, hi⟩) (by rw [← hsteps]; exact List.get_mem steps i hi)
  refine ⟨hlen, by omega, ?_, ?_, ?_⟩
  · -- the goal belongs to the finalized set
    have hchain := chain_of_ok hok
    have hR : StepRel
        ((entryStep (initDist G start) (initPrev G) [] :: steps).get ⟨i, by simp; omega⟩)
        (steps.get ⟨i, hi⟩) := by
      have h := List.chain'_iff_get.mp hchain i (by simp; omega)
      simpa using h
    rw [hR.2.1 gl hsel]
    simp
  · -- early termination is strict when a node is unfinalized
    rintro ⟨m, hm, hmn⟩
    have hsub : (steps.get ⟨i, hi⟩).closed.toFinset ⊆ G.nodes.toFinset := by
      intro x hx
      exact List.mem_toFinset.mpr
        (hinv.closed_sub x (List.mem_toFinset.mp hx))
    have hss : (steps.get ⟨i, hi⟩).closed.toFinset ⊂ G.nodes.toFinset := by
      refine Finset.ssubset_iff_of_subset hsub |>.mpr ?_
      exact ⟨m, List.mem_toFinset.mpr hm, fun hc => hmn (List.mem_toFinset.mp hc)⟩
    have hcard := Finset.card_lt_card hss
    rw [List.toFinset_card_of_nodup hinv.closed_nodup,
      List.toFinset_card_of_nodup hwf.nodes_nodup] at hcard
    omega
  · -- never-relaxed nodes keep distance +∞
    intro n hns hno
    have h := loop_dist_unrelaxed G (some gl) _ _ _ _ _ _ n
      (by rw [← hsteps]; exact hno) (steps.get ⟨i, hi⟩)
      (by rw [← hsteps]; exact List.get_mem steps i hi)
    rw [h, initDist_ne_start hns]

/-- C9: `reconstruct_path` terminates on every predecessor map recorded by
`dijkstra_steps`: engine-built predecessor chains point strictly backwards
in finalization order, so the backward walk from any node of the graph
visits each node at most once; the walk succeeds within the node-count
fuel bound (the map has exactly one key per graph node), never exhausting
it. -/
theorem reconstruct_terminates_on_engine_prev (G : Graph) (start : Node)
    (goal : Option Node) (steps : List Step) (hwf : WF G)
    (hok : dijkstra_steps G start goal = .ok steps) :
    ∀ st ∈ steps, st.prev.length = G.nodes.length ∧
      ∀ gl ∈ G.nodes, reconstruct_path st.prev start gl ≠ .outOfFuel := by
  obtain ⟨hs, hsteps⟩ := ok_start_mem hok
  subst hsteps
  intro st hst
  have hinv := loop_stepInv hwf hs goal _ _ _ _ _ _ (inv_init hs) st hst
  have hlen : st.prev.length = G.nodes.length := by
    rw [← hinv.keys_prev]
    simp
  refine ⟨hlen, ?_⟩
  intro gl hgl
  have hglkeys : gl ∈ st.prev.map Prod.fst := hinv.keys_prev ▸ hgl
  have hck : ∀ x ∈ st.closed, x ∈ st.prev.map Prod.fst := fun x hx =>
    hinv.keys_prev ▸ hinv.closed_sub x hx
  have hmeas : (if gl ∈ st.closed then posIn gl st.closed else st.closed.length)
      < st.closed.length + 1 := by
    by_cases hgc : gl ∈ st.closed
    · rw [if_pos hgc]
      have := posIn_lt_length hgc
      omega
    · rw [if_neg hgc]
      omega
  obtain ⟨c, b, htr⟩ := trace_exists hck hinv.prev_closed (st.closed.length + 1)
    gl hglkeys hmeas
  have h := rpGo_trace htr (st.prev.length + 1) [] (trace_len_le htr)
  rw [reconstruct_path, h]
  cases b <;> simp

/-! ## Concrete graphs used for counterexamples and witnesses -/

/-- Two nodes joined by an undirected weight-1 edge. -/
def wit1 : Graph :=
  { nodes := [1, 2]
    adj := fun n => if n = 1 then [2] else if n = 2 then [1] else []
    w := fun _ _ => 1 }

theorem wit1_wf : WF wit1 := ⟨by decide, by decide, by decide, by decide⟩

/-- Two isolated nodes (no edges). -/
def wit2 : Graph := { nodes := [1, 2], adj := fun _ => [], w := fun _ _ => 1 }

/-- A path 1 – 2 – 3 (all weights 1) plus the isolated node 4. -/
def wit3 : Graph :=
  { nodes := [1, 2, 3, 4]
    adj := fun n =>
      if n = 1 then [2] else if n = 2 then [1, 3] else if n = 3 then [2] else []
    w := fun _ _ => 1 }

theorem wit3_wf : WF wit3 := ⟨by decide, by decide, by decide, by decide⟩

/-- A single directed edge 1 → 2 of weight 1. -/
def witA : Graph :=
  { nodes := [1, 2], adj := fun n => if n = 1 then [2] else [], w := fun _ _ => 1 }

/-- Directed edges 0 → 1 (weight 0), 0 → 2 (weight 1/2) and 1 → 2
(weight 1). -/
def witB : Graph :=
  { nodes := [0, 1, 2]
    adj := fun n => if n = 0 then [1, 2] else if n = 1 then [2] else []
    w := fun a b =>
      if (a, b) = (0, 1) then 0 else if (a, b) = (0, 2) then 1/2 else 1 }

/-- The identical relaxation record produced in both runs below. -/
def tShared : TryLog :=
  { i := 1, j := 2, link_cost := 1, perm_cost := some 0, temp_cost := some 1
    selected := "N/A", deleted := "NA" }

/-- C4 counterexample: the recorded attempt does not carry a three-valued
outcome — `improved` and `not-improved` attempts are recorded identically.
The very same full record `tShared` (all seven fields equal) is produced
once by a relaxation that strictly improved the neighbor's distance (run
on `witA`: node 2 goes from `+∞` to 1, and the candidate 1 is below the
prior distance `+∞`) and once by one that did not (run on `witB`: node 2
stays at 1/2 across the step, and the candidate 1 is not below 1/2), so no
function of the recorded attempt can distinguish `improved` from
`not-improved`, contradicting the claim that the outcome is recorded with
`improved` exactly when the candidate beats the current distance. -/
theorem trylog_outcome_counterexample :
    ((stepsOf witA 1 none)[0]?).map Step.trying = some [tShared] ∧
    ((stepsOf witB 0 none)[1]?).map Step.trying = some [tShared] ∧
    dget (initDist witA 1) 2 = none ∧
    ((stepsOf witA 1 none)[0]?).map (fun st => dget st.dist 2) = some (some 1) ∧
    ((stepsOf witB 0 none)[0]?).map (fun st => dget st.dist 2) = some (some (1/2)) ∧
    ((stepsOf witB 0 none)[1]?).map (fun st => dget st.dist 2) = some (some (1/2)) ∧
    ltE tShared.temp_cost none = true ∧
    ltE tShared.temp_cost (some (1/2)) = false := by
  refine ⟨?_, ?_, ?_, ?_, ?_, ?_, ?_, ?_⟩ <;> with_unfolding_all decide

/-- C4 (amended): every Step with a selected node records exactly one
attempt per neighbor of that node, in neighbor enumeration order; each
attempt carries the selected node, the edge weight, the selected node's
(finite) distance and the candidate distance, and its `deleted` marker
distinguishes only `skipped-already-finalized` (`"already_closed"`, used
exactly for neighbors finalized before this Step) from examined neighbors
(`"NA"`); improved and not-improved attempts are recorded identically. -/
theorem dijkstra_attempts_per_neighbor (G : Graph) (start : Node) (goal : Option Node)
    (steps : List Step) (hwf : WF G) (hok : dijkstra_steps G start goal = .ok steps) :
    ∀ st ∈ steps, ∀ c, st.selected_node = some c →
      st.trying.map (fun t => t.j) = G.adj c ∧
      ∀ t ∈ st.trying, t.i = c ∧ t.selected = "N/A" ∧
        t.link_cost = G.w c t.j ∧ t.perm_cost = dget st.dist c ∧
        t.temp_cost = addE t.perm_cost t.link_cost ∧
        t.deleted = (if t.j ∈ st.closed.dropLast then "already_closed" else "NA") := by
  obtain ⟨hs, hsteps⟩ := ok_start_mem hok
  subst hsteps
  intro st hst c hc
  obtain ⟨dc, hdc, _, htr⟩ :=
    loop_trying hwf hs goal _ _ _ _ _ _ (inv_init hs) st hst c hc
  constructor
  · rw [htr]
    simp [List.map_map, Function.comp_def, mkLog]
  · intro t ht
    rw [htr] at ht
    obtain ⟨nbr, _, rfl⟩ := List.mem_map.mp ht
    refine ⟨rfl, rfl, rfl, ?_, ?_, rfl⟩
    · rw [hdc]
      rfl
    · rw [mkLog]
      simp [addE]

/-! ## Witnesses: the claim theorems applied at concrete inputs -/

theorem dijkstra_finalized_shortest_witness :
    ∃ d, dget ((stepsOf wit1 1 none).get ⟨1, by with_unfolding_all decide⟩).dist 2
        = some d ∧ IsShortestDist wit1 1 2 d := by
  have h := dijkstra_finalized_shortest wit1 1 none (stepsOf wit1 1 none) wit1_wf rfl
  exact h ((stepsOf wit1 1 none).get ⟨1, by with_unfolding_all decide⟩)
    (List.get_mem _ _ _) 2 (by with_unfolding_all decide)

theorem dist_prev_consistent_witness :
    ∃ dn dp,
      dget ((stepsOf wit1 1 none).get ⟨1, by with_unfolding_all decide⟩).dist 2
        = some dn ∧
      dget ((stepsOf wit1 1 none).get ⟨1, by with_unfolding_all decide⟩).dist 1
        = some dp ∧
      dn = dp + wit1.w 1 2 := by
  have h := dist_prev_consistent wit1 1 none (stepsOf wit1 1 none) wit1_wf rfl
  exact h ((stepsOf wit1 1 none).get ⟨1, by with_unfolding_all decide⟩)
    (List.get_mem _ _ _) 2 1 (by with_unfolding_all decide)

theorem dijkstra_attempts_per_neighbor_witness :
    ((stepsOf wit1 1 none).get ⟨0, by with_unfolding_all decide⟩).trying.map
        (fun t => t.j) = wit1.adj 1 := by
  have h := dijkstra_attempts_per_neighbor wit1 1 none (stepsOf wit1 1 none) wit1_wf rfl
  exact (h ((stepsOf wit1 1 none).get ⟨0, by with_unfolding_all decide⟩)
    (List.get_mem _ _ _) 1 (by with_unfolding_all decide)).1

theorem terminal_step_spec_witness :
    ((stepsOf wit2 1 none).get ⟨1, by with_unfolding_all decide⟩).trying = [] ∧
    1 + 1 = (stepsOf wit2 1 none).length := by
  have h := terminal_step_spec wit2 1 none (stepsOf wit2 1 none) rfl 1
    (by with_unfolding_all decide) (by with_unfolding_all decide)
  exact ⟨h.1, h.2.1⟩

theorem goal_early_termination_witness :
    1 + 1 = (stepsOf wit3 1 (some 2)).length ∧
    (stepsOf wit3 1 (some 2)).length
      = ((stepsOf wit3 1 (some 2)).get ⟨1, by with_unfolding_all decide⟩).closed.length ∧
    dget ((stepsOf wit3 1 (some 2)).get ⟨1, by with_unfolding_all decide⟩).dist 4
      = none ∧
    (stepsOf wit3 1 (some 2)).length < wit3.nodes.length := by
  have h := goal_early_termination wit3 1 2 (stepsOf wit3 1 (some 2)) wit3_wf rfl 1
    (by with_unfolding_all decide) (by with_unfolding_all decide)
  exact ⟨h.1, h.2.1, h.2.2.2.2 4 (by decide) (by with_unfolding_all decide),
    h.2.2.2.1 ⟨4, by decide, by with_unfolding_all decide⟩⟩

theorem dist_monotone_spec_witness :
    leE (dget ((stepsOf wit1 1 none).get ⟨1, by with_unfolding_all decide⟩).dist 2)
        (dget ((stepsOf wit1 1 none).get ⟨0, by with_unfolding_all decide⟩).dist 2)
      = true := by
  have h := dist_monotone_spec wit1 1 none (stepsOf wit1 1 none) rfl 0
    (by with_unfolding_all decide) 2
  exact h.1

theorem reconstruct_terminates_witness :
    ((stepsOf wit1 1 none).get ⟨1, by with_unfolding_all decide⟩).prev.length
      = wit1.nodes.length ∧
    reconstruct_path
      ((stepsOf wit1 1 none).get ⟨1, by with_unfolding_all decide⟩).prev 1 2
      ≠ .outOfFuel := by
  have h := reconstruct_terminates_on_engine_prev wit1 1 none (stepsOf wit1 1 none)
    wit1_wf rfl ((stepsOf wit1 1 none).get ⟨1, by with_unfolding_all decide⟩)
    (List.get_mem _ _ _)
  exact ⟨h.1, h.2 2 (by decide)⟩

theorem reconstruct_keyerror_witness :
    reconstruct_path [(1, none)] 1 2 = .keyError 2 :=
  reconstruct_keyerror_on_missing_goal [(1, none)] 1 2 (by decide) (by decide)
